import Mathlib

/-!
Verification of the table-extraction core of DocSplitter (src/app.py) against its
natural-language specification.

The development shallowly embeds the data reached by extract_tables_from_docx:
a parsed docx document (body children, tables with rows and cells, cell and table
property lists, the style part, auxiliary parts), together with the python-docx /
lxml behaviours the code exercises:

  * Document.tables enumerates only w:tbl elements that are direct children of
    the body, in document order;
  * Table.cell(r, c) and Row.cells go through the flat cell list Table._cells,
    which repeats each cell gridSpan times and resolves a vertical-merge
    continuation cell to the entry one full row earlier (cells[-col_count] —
    an IndexError when too few cells precede it);
  * CT_Tbl.tblPr is schema-required (OneAndOnlyOne), so reading table.style on
    a w:tbl without a w:tblPr child raises InvalidXmlError before any copying;
  * CT_Tc.clear_content removes the cell content but keeps the tcPr element;
  * appending an lxml element to another tree MOVES it out of its original
    parent, and iterating a live child list while moving children away skips
    every other child (children at even positions are moved, odd ones stay);
  * Document() opens the bundled default template (empty body, the template's
    own styles and base relationships, no media, no numbering);
  * assigning a Style object taken from another document writes that object's
    style_id into the target without checking it is defined there.

Nested tables inside cells are kept as opaque subtrees (the code never inspects
them: cell.paragraphs filters them out), and run formatting is the exact field
set the code copies.
-/

namespace DocSplitter

/-- Character-run formatting: exactly the fields lines 54-63 of app.py copy.
Colours and highlight values are the underlying ints of the python-docx enums. -/
structure RunFmt where
  bold : Option Bool
  italic : Option Bool
  underline : Option Bool
  size : Option Nat
  fontName : Option String
  colorRgb : Option Nat
  highlight : Option Nat
  deriving DecidableEq, Repr

/-- A w:r run: its text plus formatting. -/
structure Run where
  text : String
  fmt : RunFmt
  deriving DecidableEq, Repr

/-- A w:p paragraph: alignment, the style id stored in its pPr (if any), and its
direct w:r children (paragraph.runs in python-docx returns exactly those). -/
structure Paragraph where
  alignment : Option Nat
  styleId : Option String
  runs : List Run
  deriving DecidableEq, Repr

/-- A child element of a w:tcPr cell-properties element. gridSpan and vMerge
are modelled explicitly because Table._cells reads both (gridSpan repeats the
cell, a vMerge whose val is continue — the default when the attribute is
absent — resolves to the cell a full row earlier); every other property
(shading, borders, widths, ...) is an opaque tagged child. restart is the
w:val attribute read as ST_Merge: restart = false is the continue value. -/
inductive TcPrChild where
  | gridSpan (n : Nat)
  | vMerge (restart : Bool)
  | other (tag : String)
  deriving DecidableEq, Repr

/-- A table nested inside a cell, kept opaque: extract_tables_from_docx never
inspects nested tables (cell.paragraphs filters them out and nothing copies
them), so only their identity matters. -/
structure SubTbl where
  raw : String
  deriving DecidableEq, Repr

/-- A block-level child of a w:tc cell: a paragraph or a nested table. -/
inductive CellBlock where
  | para (p : Paragraph)
  | table (t : SubTbl)
  deriving DecidableEq, Repr

/-- A w:tc table cell: optional tcPr element plus block content. -/
structure Tc where
  tcPr : Option (List TcPrChild)
  content : List CellBlock
  deriving DecidableEq, Repr

/-- A w:tr table row. -/
structure Tr where
  tcs : List Tc
  deriving DecidableEq, Repr

/-- A child element of a w:tblPr: the tblStyle reference is explicit (it is a
style reference); everything else is an opaque tagged child. -/
inductive TblPrChild where
  | tblStyle (id : String)
  | other (tag : String)
  deriving DecidableEq, Repr

/-- A w:tbl table: optional tblPr, the number of w:gridCol entries of its
tblGrid (len(table.columns) in python-docx), and its rows. -/
structure Tbl where
  tblPr : Option (List TblPrChild)
  gridCols : Nat
  rows : List Tr
  deriving DecidableEq, Repr

/-- A block inside a structured-content control (w:sdt) that is a direct body
child: enough structure to hold tables that are not direct body children. -/
inductive SdtBlock where
  | para (p : Paragraph)
  | tbl (t : Tbl)
  deriving DecidableEq, Repr

/-- A direct child of the w:body element. -/
inductive BodyChild where
  | para (p : Paragraph)
  | tbl (t : Tbl)
  | sdt (content : List SdtBlock)
  deriving DecidableEq, Repr

/-- The type of a style definition (w:style w:type). -/
inductive StyleType where
  | paragraph
  | character
  | table
  | numbering
  deriving DecidableEq, Repr

instance : BEq StyleType := ⟨fun a b => decide (a = b)⟩

/-- One style definition from the styles part: its id, type, and whether it is
the default style of its type (w:default="1"). -/
structure StyleDef where
  id : String
  type : StyleType
  isDefault : Bool
  deriving DecidableEq, Repr

/-- A parsed document package: the body tree plus the auxiliary parts
(styles part, numbering definitions, media blobs, relationship entries). -/
structure Doc where
  body : List BodyChild
  styles : List StyleDef
  numberingIds : List Nat
  mediaParts : List String
  relationshipIds : List String
  deriving DecidableEq, Repr

/-! ### Generic list helpers used by the embedding -/

/-- Python enumerate(xs, n): pair each element with its index starting at n. -/
def enumFrom (n : Nat) : List α → List (Nat × α)
  | [] => []
  | a :: rest => (n, a) :: enumFrom (n + 1) rest

/-- Apply f to the element at index i (identity when out of range). -/
def modifyAt : List α → Nat → (α → α) → List α
  | [], _, _ => []
  | a :: rest, 0, f => f a :: rest
  | a :: rest, n + 1, f => a :: modifyAt rest n f

/-- Effect of the lxml idiom `for child in src: dst.append(child)`: appending
moves each child out of src, and the live iterator then skips the element that
slid into the vacated position, so children at even positions are moved (first
component) and children at odd positions remain in src (second component). -/
def moveAlternate : List α → List α × List α
  | [] => ([], [])
  | [a] => ([a], [])
  | a :: b :: rest =>
    let p := moveAlternate rest
    (a :: p.1, b :: p.2)

/-! ### python-docx behaviours -/

/-- Document.tables / _Body.tables: the w:tbl elements that are direct children
of the body, in document order. -/
def docTables (d : Doc) : List Tbl :=
  d.body.filterMap fun ch =>
    match ch with
    | .tbl t => some t
    | _ => none

/-- Styles.__getitem__ by id: the first style definition with the given id. -/
def findStyleById (d : Doc) (id : String) : Option StyleDef :=
  d.styles.find? fun s => s.id == id

/-- Styles.default(style_type): the style marked default for the given type. -/
def defaultStyleOf (d : Doc) (ty : StyleType) : Option StyleDef :=
  d.styles.find? fun s => s.isDefault && s.type == ty

/-- StylesPart.get_style / Styles._get_by_id: resolve a raw style id of the
given type against a document, falling back to that document's default style of
the type when the id is absent or of the wrong type. -/
def getStyleResolve (d : Doc) (sid : Option String) (ty : StyleType) : Option StyleDef :=
  match sid with
  | none => defaultStyleOf d ty
  | some id =>
    match findStyleById d id with
    | some s => if s.type == ty then some s else defaultStyleOf d ty
    | none => defaultStyleOf d ty

/-- Net effect of `new_para.style = paragraph.style` (app.py line 47): the
original paragraph's style is resolved in the ORIGINAL document, and the
resulting Style object's style_id is written into the new document's paragraph
(python-docx compares the object against the new document's default style by
element identity, which is false across documents, so no membership check
against the new document's styles happens). None clears the style. -/
def resolveParaStyleId (d : Doc) (sid : Option String) : Option String :=
  (getStyleResolve d sid .paragraph).map (·.id)

/-- First w:tblStyle value among tblPr children (CT_Tbl.tblStyle_val getter). -/
def firstTblStyle : List TblPrChild → Option String
  | [] => none
  | .tblStyle id :: _ => some id
  | .other _ :: rest => firstTblStyle rest

/-- The raw style id stored in a table's tblPr. -/
def tblStyleIdOf (t : Tbl) : Option String :=
  firstTblStyle (t.tblPr.getD [])

/-- First w:gridSpan value among tcPr children. -/
def firstGridSpan : List TcPrChild → Option Nat
  | [] => none
  | .gridSpan n :: _ => some n
  | _ :: rest => firstGridSpan rest

/-- CT_Tc.grid_span: the cell's gridSpan value, defaulting to 1. -/
def gridSpanOf (tc : Tc) : Nat :=
  (firstGridSpan (tc.tcPr.getD [])).getD 1

/-- First w:vMerge element among tcPr children (CT_TcPr.vMerge is ZeroOrOne:
the first such child is the one read). -/
def firstVMerge : List TcPrChild → Option Bool
  | [] => none
  | .vMerge restart :: _ => some restart
  | _ :: rest => firstVMerge rest

/-- CT_Tc.vMerge == ST_Merge.CONTINUE: the cell carries a w:vMerge child whose
val is continue (restart = false; an absent val defaults to continue). -/
def vMergeContinue (tc : Tc) : Bool :=
  match firstVMerge (tc.tcPr.getD []) with
  | some restart => !restart
  | none => false

/-- Python negative indexing l[-C]: -0 is 0, otherwise the element C places
from the end; none models the IndexError when the list is too short. -/
def negIndex (l : List α) (C : Nat) : Option α :=
  if C = 0 then l.get? 0
  else if C ≤ l.length then l.get? (l.length - C)
  else none

/-- The Table._cells loop body for one tc element: for each grid_span index,
append one resolved address to the accumulated flat list — cells[-col_count]
for a vMerge-continue cell (none models the IndexError when too few cells
precede), the previous entry for the later span positions, and the cell's own
(rowIndex, tcIndex) address otherwise. -/
def appendTcCells (C ri ti : Nat) (tc : Tc) (cells : List (Nat × Nat)) :
    Option (List (Nat × Nat)) :=
  (List.range (gridSpanOf tc)).foldlM
    (fun cs gi =>
      if vMergeContinue tc then (negIndex cs C).map fun a => cs ++ [a]
      else if 0 < gi then (negIndex cs 1).map fun a => cs ++ [a]
      else some (cs ++ [(ri, ti)]))
    cells

/-- Table._cells accumulation over one row's tc elements. -/
def appendRowCells (C ri : Nat) : Nat → List Tc → List (Nat × Nat) →
    Option (List (Nat × Nat))
  | _, [], cells => some cells
  | ti, tc :: rest, cells =>
    match appendTcCells C ri ti tc cells with
    | none => none
    | some cells' => appendRowCells C ri (ti + 1) rest cells'

/-- Table._cells accumulation over the rows (iter_tcs order: row-major). -/
def cellsAuxO (C : Nat) : Nat → List Tr → List (Nat × Nat) →
    Option (List (Nat × Nat))
  | _, [], cells => some cells
  | ri, tr :: rest, cells =>
    match appendRowCells C ri 0 tr.tcs cells with
    | none => none
    | some cells' => cellsAuxO C (ri + 1) rest cells'

/-- Table._cells: the flat list of cell addresses of a table, in document
order, each cell repeated grid_span times and vertical-merge continuations
resolved to the address one full row earlier; none models the IndexError of
the cells[-col_count] backreference. Recomputed from the current tree on
every access, as the python property is. -/
def tblCellsO (t : Tbl) : Option (List (Nat × Nat)) :=
  cellsAuxO t.gridCols 0 t.rows []

/-- Expansion of one row's tc list into (rowIndex, tcIndex) addresses, each tc
repeated grid_span times: the value appendTcCells accumulates when no cell is
a vertical-merge continuation. -/
def expandTcs (ri : Nat) : Nat → List Tc → List (Nat × Nat)
  | _, [] => []
  | ti, tc :: rest => List.replicate (gridSpanOf tc) (ri, ti) ++ expandTcs ri (ti + 1) rest

/-- Row-by-row accumulation of the vMerge-free Table._cells value. -/
def cellsAux : Nat → List Tr → List (Nat × Nat)
  | _, [] => []
  | ri, tr :: rest => expandTcs ri 0 tr.tcs ++ cellsAux (ri + 1) rest

/-- The value of Table._cells on a table without vertical-merge continuations
(tblCellsO computes some of this there — proved below as tblCellsO_noVm). -/
def tblCells (t : Tbl) : List (Nat × Nat) :=
  cellsAux 0 t.rows

/-- _Row.cells / Table.row_cells: the slice [r*C, r*C + C) of Table._cells,
where C is the table's grid column count (Python slicing clips at the end of
the list); none propagates the _cells IndexError. -/
def rowCellsSnapO (t : Tbl) (r C : Nat) : Option (List (Nat × Nat)) :=
  (tblCellsO t).map fun cells => (cells.drop (r * C)).take C

/-- The vMerge-free value of rowCellsSnapO. -/
def rowCellsSnap (t : Tbl) (r C : Nat) : List (Nat × Nat) :=
  ((tblCells t).drop (r * C)).take C

/-- Table.cell(r, c): index r*C + c into Table._cells; none models the
IndexError python raises when the index is out of range (or one escaping the
_cells computation itself). -/
def tblCellAt? (t : Tbl) (C r c : Nat) : Option (Nat × Nat) :=
  (tblCellsO t).bind fun cells => cells.get? (r * C + c)

/-- Fetch the tc element at an address. -/
def Tbl.getTc? (t : Tbl) (ri ti : Nat) : Option Tc :=
  (t.rows.get? ri).bind fun tr => tr.tcs.get? ti

/-- In-place update of the tc element at an address. -/
def Tbl.modifyTc (t : Tbl) (ri ti : Nat) (f : Tc → Tc) : Tbl :=
  { t with rows := modifyAt t.rows ri fun tr => ⟨modifyAt tr.tcs ti f⟩ }

/-! ### The default template opened by Document() -/

/-- Abridged list of the style definitions of the python-docx default template
(default.docx): the defaults of each type plus a few named styles. Only two
facts about it are load-bearing: it is a fixed set independent of the input,
and custom style ids of an input document are not in it. -/
def defaultTemplateStyles : List StyleDef :=
  [ ⟨"Normal", .paragraph, true⟩,
    ⟨"DefaultParagraphFont", .character, true⟩,
    ⟨"TableNormal", .table, true⟩,
    ⟨"NoList", .numbering, true⟩,
    ⟨"Heading1", .paragraph, false⟩,
    ⟨"Heading2", .paragraph, false⟩,
    ⟨"Title", .paragraph, false⟩,
    ⟨"ListParagraph", .paragraph, false⟩,
    ⟨"TableGrid", .table, false⟩ ]

/-- The package Document() opens: the bundled default template. Its body is
empty (document.xml holds only the section properties), it has no numbering
part and no media, and its relationships are the template's base parts. -/
def defaultTemplate : Doc :=
  { body := []
    styles := defaultTemplateStyles
    numberingIds := []
    mediaParts := []
    relationshipIds := ["styles.xml", "settings.xml", "fontTable.xml", "theme1.xml"] }

/-- The empty w:p element placed in each cell created by add_table. -/
def emptyParagraph : Paragraph :=
  { alignment := none, styleId := none, runs := [] }

/-- A fresh w:tc as created by CT_Tbl.new: no tcPr, one empty paragraph. -/
def mkNewTc : Tc :=
  { tcPr := none, content := [.para emptyParagraph] }

/-- tblPr of a table freshly created by add_table (its auto tblW entry). -/
def newTblPrDefault : List TblPrChild :=
  [.other "tblW"]

/-- Document.add_table(rows=R, cols=C): a fresh table with a C-column grid and
R rows of C fresh cells. -/
def mkNewTable (R C : Nat) : Tbl :=
  { tblPr := some newTblPrDefault
    gridCols := C
    rows := List.replicate R ⟨List.replicate C mkNewTc⟩ }

/-- Whether a tblPr child is a w:tblStyle element. -/
def isTblStyleChild : TblPrChild → Bool
  | .tblStyle _ => true
  | .other _ => false

/-- CT_Tbl.tblStyle_val setter: drop any existing w:tblStyle child and insert
the new one at the front of the tblPr children. -/
def setTblStyleChildren (sid : String) (l : List TblPrChild) : List TblPrChild :=
  .tblStyle sid :: l.filter fun ch => !isTblStyleChild ch

/-! ### The copy performed for each cell (app.py lines 33-72) -/

/-- WD_COLOR_INDEX members are int subclasses, so `if run.font.highlight_color:`
is false exactly for None and for a zero-valued member. -/
def highlightTruthy : Option Nat → Bool
  | none => false
  | some n => n != 0

/-- Lines 50-63: add_run(run.text) followed by the field-by-field formatting
copy; highlight is copied only when truthy. -/
def copyRun (r : Run) : Run :=
  { text := r.text
    fmt :=
      { bold := r.fmt.bold
        italic := r.fmt.italic
        underline := r.fmt.underline
        size := r.fmt.size
        fontName := r.fmt.fontName
        colorRgb := r.fmt.colorRgb
        highlight := if highlightTruthy r.fmt.highlight then r.fmt.highlight else none } }

/-- Lines 41-63: a new paragraph in the target cell with the original's
alignment, the style id as written by the cross-document style assignment, and
the copied runs. -/
def copyParagraph (d : Doc) (p : Paragraph) : Paragraph :=
  { alignment := p.alignment
    styleId := resolveParaStyleId d p.styleId
    runs := p.runs.map copyRun }

/-- _Cell.paragraphs: only the w:p children of the cell; nested tables are
filtered out. -/
def cellParagraphs (tc : Tc) : List Paragraph :=
  tc.content.filterMap fun blk =>
    match blk with
    | .para p => some p
    | .table _ => none

/-- The full block content written into a target cell by the paragraph loop:
one copied paragraph per original paragraph, and nothing else. -/
def copiedCellContent (d : Doc) (tc : Tc) : List CellBlock :=
  (cellParagraphs tc).map fun p => .para (copyParagraph d p)

/-- Lines 35-72 for one (row, column) position. st is the pair (original
table, new table); addr is the address of the original cell delivered by the
row.cells snapshot. Steps, in source order: look up the target cell through
Table.cell on the CURRENT new table (none models the IndexError); clear its
content keeping tcPr; write the copied paragraphs; get_or_add_tcPr; then if the
original cell has a tcPr, move every other of its children into the target
(lxml live-iteration move), mutating the original cell. -/
def copyCellAt (d : Doc) (C : Nat) (st : Tbl × Tbl) (r c : Nat) (addr : Nat × Nat) :
    Option (Tbl × Tbl) :=
  match tblCellAt? st.2 C r c with
  | none => none
  | some nAddr =>
    match st.1.getTc? addr.1 addr.2 with
    | none => none
    | some origTc =>
      let nt := st.2.modifyTc nAddr.1 nAddr.2 fun tc => { tc with content := [] }
      let nt := nt.modifyTc nAddr.1 nAddr.2 fun tc =>
        { tc with content := copiedCellContent d origTc }
      let nt := nt.modifyTc nAddr.1 nAddr.2 fun tc => { tc with tcPr := some (tc.tcPr.getD []) }
      match origTc.tcPr with
      | none => some (st.1, nt)
      | some l =>
        let mv := moveAlternate l
        let nt := nt.modifyTc nAddr.1 nAddr.2 fun tc =>
          { tc with tcPr := some (tc.tcPr.getD [] ++ mv.1) }
        let ot := st.1.modifyTc addr.1 addr.2 fun tc => { tc with tcPr := some mv.2 }
        some (ot, nt)

/-- Line 33-34 for one row: snapshot row.cells from the CURRENT original table
(C is its grid column count, which the loop never changes), then fold the
per-cell copy over enumerate(row.cells); none propagates the _cells
IndexError. -/
def copyRowCells (d : Doc) (C r : Nat) (st : Tbl × Tbl) : Option (Tbl × Tbl) :=
  match rowCellsSnapO st.1 r C with
  | none => none
  | some snap =>
    (enumFrom 0 snap).foldlM (fun s ca => copyCellAt d C s r ca.1 ca.2) st

/-- The two nested loops of lines 33-72: table.rows is snapshotted once (R row
objects), each row's cells are then copied in order. -/
def copyAllCells (d : Doc) (R C : Nat) (st : Tbl × Tbl) : Option (Tbl × Tbl) :=
  (List.range R).foldlM (fun s r => copyRowCells d C r s) st

/-- Lines 22-82 for one top-level table t of document d: build the new document
(default template) and add an R x C table; read table.style (line 29) — the
first match models CT_Tbl.tblPr being schema-required, so a table without a
tblPr element raises InvalidXmlError here, before any copying — and when the
resolved Style object is truthy, write its style_id into the new table; copy
all cells (mutating both tables); then clear the new table's tblPr and move
every other child of the original's tblPr into it (lines 75-78, a
live-iteration lxml move that mutates the original; reading tblPr there again
raises when it is absent). Returns the new document and the mutated original
table; none models an uncaught exception. -/
def processOneTable (d : Doc) (t : Tbl) : Option (Doc × Tbl) :=
  let R := t.rows.length
  let C := t.gridCols
  let nt0 := mkNewTable R C
  match t.tblPr with
  | none => none
  | some _ =>
    let nt1 :=
      match getStyleResolve d (tblStyleIdOf t) .table with
      | some s => { nt0 with tblPr := some (setTblStyleChildren s.id (nt0.tblPr.getD [])) }
      | none => nt0
    match copyAllCells d R C (t, nt1) with
    | none => none
    | some (ot, nt2) =>
      match ot.tblPr with
      | none => none
      | some l =>
        let mv := moveAlternate l
        some ({ defaultTemplate with
                  body := defaultTemplate.body ++ [.tbl { nt2 with tblPr := some mv.1 }] },
              { ot with tblPr := some mv.2 })

/-- The bytes produced by new_doc.save: python-docx writes the package through
zipfile, which stamps each member with the current local time, so the byte
sequence is the document content plus a wall-clock timestamp. -/
structure SavedPackage where
  zipTimestamp : Nat
  doc : Doc
  deriving DecidableEq, Repr

/-- new_doc.save at a given clock reading. -/
def saveDoc (clock : Nat) (d : Doc) : SavedPackage :=
  { zipTimestamp := clock, doc := d }

/-- Re-opening saved output bytes with Document(): the content round-trips. -/
def parsePackage (p : SavedPackage) : Doc :=
  p.doc

/-- One entry of the returned extracted_docs list. -/
structure ExtractedDoc where
  name : String
  content : SavedPackage
  deriving DecidableEq, Repr

/-- The loop `for i, table in enumerate(doc.tables, 1)` with its in-place
mutation of each original table, modelled as an in-order traversal of the body
children that replaces each top-level table by its mutated version and collects
the outputs. This is equivalent to iterating the snapshot list doc.tables:
each table is processed exactly once, in document order, and processing one
table reads and writes only that table (plus the immutable styles part, passed
as d). i is the running 1-based index. -/
def extractBody (d : Doc) (clock : Nat) : List BodyChild → Nat →
    Option (List ExtractedDoc × List BodyChild)
  | [], _ => some ([], [])
  | .tbl t :: rest, i =>
    match processOneTable d t with
    | none => none
    | some (nd, t') =>
      match extractBody d clock rest (i + 1) with
      | none => none
      | some (docs, rest') =>
        some ({ name := "table_" ++ toString i ++ ".docx", content := saveDoc clock nd } :: docs,
              .tbl t' :: rest')
  | ch :: rest, i =>
    match extractBody d clock rest i with
    | none => none
    | some (docs, rest') => some (docs, ch :: rest')

/-- The message returned when the document has no top-level tables. -/
def noTablesMsg : String := "No tables found in the document."

/-- extract_tables_from_docx (app.py lines 9-90), with the function-local
parsed document exposed: returns the (extracted_docs, error) pair together
with the final state of the parsed original document, which the Python code
mutates and then discards. clock is the wall time zipfile reads when saving.
none models an uncaught exception escaping the function. -/
def extractTablesFromDocxFull (clock : Nat) (d : Doc) :
    Option ((List ExtractedDoc × Option String) × Doc) :=
  if (docTables d).isEmpty then
    some (([], some noTablesMsg), d)
  else
    match extractBody d clock d.body 1 with
    | none => none
    | some (docs, body') => some ((docs, none), { d with body := body' })

/-- extract_tables_from_docx as its caller sees it. -/
def extractTablesFromDocx (clock : Nat) (d : Doc) :
    Option (List ExtractedDoc × Option String) :=
  (extractTablesFromDocxFull clock d).map (·.1)

/-! ### Observations used to state the claims -/

/-- The spec's Topology Classifier, written from its words: iterate the body's
immediate children only; each child whose element kind is "table" is appended
to the result in encounter order. -/
def topLevelTablesSpec : List BodyChild → List Tbl
  | [] => []
  | .tbl t :: rest => t :: topLevelTablesSpec rest
  | _ :: rest => topLevelTablesSpec rest

/-- Whether a tcPr child is a w:gridSpan element. -/
def isGridSpanChild : TcPrChild → Bool
  | .gridSpan _ => true
  | _ => false

/-- Whether a tcPr child is a w:vMerge element. -/
def isVMergeChild : TcPrChild → Bool
  | .vMerge _ => true
  | _ => false

/-- A gridSpan child with a positive span (well-formed packages only carry
spans of at least 1). -/
def spanOkChild : TcPrChild → Bool
  | .gridSpan n => n != 0
  | _ => true

/-- A tcPr child that is not a vertical-merge continuation marker. -/
def vmOkChild : TcPrChild → Bool
  | .vMerge restart => restart
  | _ => true

/-- Every row of the table has exactly gridCols cells and no cell carries a
gridSpan or vMerge property: a table without any merge markers. -/
def uniformNoMergeB (t : Tbl) : Bool :=
  t.rows.all fun tr =>
    tr.tcs.length == t.gridCols &&
      tr.tcs.all fun tc =>
        (tc.tcPr.getD []).all fun ch => !isGridSpanChild ch && !isVMergeChild ch

/-- The merge pattern of a table: the gridSpan width of each cell, row by row. -/
def mergePattern (t : Tbl) : List (List Nat) :=
  t.rows.map fun tr => tr.tcs.map gridSpanOf

/-- The textual content of a table: for each cell, the text of each run of each
of its paragraphs (the data _Cell.text is built from). -/
def cellTexts (t : Tbl) : List (List (List (List String))) :=
  t.rows.map fun tr =>
    tr.tcs.map fun tc => (cellParagraphs tc).map fun p => p.runs.map (·.text)

/-- The nested tables sitting inside the cells of a table. -/
def nestedTablesOf (t : Tbl) : List SubTbl :=
  t.rows.flatMap fun tr =>
    tr.tcs.flatMap fun tc =>
      tc.content.filterMap fun blk =>
        match blk with
        | .table s => some s
        | .para _ => none

/-- Erase exactly the data the extraction loop moves out of the original
document — the tcPr of every top-level cell and the tblPr — leaving everything
else (body structure, cell contents, paragraphs, runs, nested tables). -/
def eraseTc (tc : Tc) : Tc :=
  { tc with tcPr := none }

/-- Erase the movable properties of a row. -/
def eraseTr (tr : Tr) : Tr :=
  ⟨tr.tcs.map eraseTc⟩

/-- Erase the movable properties of a top-level table. -/
def eraseTbl (t : Tbl) : Tbl :=
  { t with tblPr := none, rows := t.rows.map eraseTr }

/-- Erase the movable properties of a body child. -/
def eraseBodyChild : BodyChild → BodyChild
  | .tbl t => .tbl (eraseTbl t)
  | ch => ch

/-- Erase the movable properties of a whole document. -/
def eraseDoc (d : Doc) : Doc :=
  { d with body := d.body.map eraseBodyChild }

/-- Style ids referenced by a paragraph (its pPr style, if any). -/
def paraStyleRefs (p : Paragraph) : List String :=
  p.styleId.toList

/-- Style ids referenced inside a cell's content. -/
def tcStyleRefs (tc : Tc) : List String :=
  tc.content.flatMap fun blk =>
    match blk with
    | .para p => paraStyleRefs p
    | .table _ => []

/-- Style ids referenced by a table: its tblStyle entries plus everything its
cells reference. -/
def tblStyleRefs (t : Tbl) : List String :=
  ((t.tblPr.getD []).filterMap fun ch =>
    match ch with
    | .tblStyle id => some id
    | .other _ => none) ++
  t.rows.flatMap fun tr => tr.tcs.flatMap tcStyleRefs

/-- Style ids referenced by one body child. -/
def bodyChildStyleRefs : BodyChild → List String
  | .para p => paraStyleRefs p
  | .tbl t => tblStyleRefs t
  | .sdt blocks =>
    blocks.flatMap fun blk =>
      match blk with
      | .para p => paraStyleRefs p
      | .tbl t => tblStyleRefs t

/-- All style ids referenced anywhere in a document's body. -/
def docStyleRefs (d : Doc) : List String :=
  d.body.flatMap bodyChildStyleRefs

/-- The style ids a document's styles part defines. -/
def definedStyleIds (d : Doc) : List String :=
  d.styles.map (·.id)

/-- The style ids an extracted output can possibly reference: ids written in
the original's body plus ids defined by the original's styles part. -/
def stylePool (d : Doc) : List String :=
  docStyleRefs d ++ definedStyleIds d

/-- A document has a dangling style reference when some referenced style id
has no definition in the same package. -/
def hasDanglingStyleRef (d : Doc) : Bool :=
  (docStyleRefs d).any fun id => !(definedStyleIds d).contains id

/-- A list whose first n elements are mapped through f and whose remaining
elements are mapped through g: the shape of the copy loop's intermediate
states (processed prefix, untouched suffix). -/
def twoPhase (f g : α → β) (n : Nat) (l : List α) : List β :=
  (l.take n).map f ++ (l.drop n).map g

/-! ### Lemmas about the generic helpers -/

theorem length_modifyAt (l : List α) (i : Nat) (f : α → α) :
    (modifyAt l i f).length = l.length := by
  induction l generalizing i with
  | nil => rfl
  | cons a rest ih =>
    cases i with
    | zero => rfl
    | succ n => simp [modifyAt, ih]

theorem get?_modifyAt_ne (l : List α) (i j : Nat) (f : α → α) (h : i ≠ j) :
    (modifyAt l i f).get? j = l.get? j := by
  induction l generalizing i j with
  | nil => rfl
  | cons a rest ih =>
    cases i with
    | zero =>
      cases j with
      | zero => exact absurd rfl h
      | succ m => rfl
    | succ n =>
      cases j with
      | zero => rfl
      | succ m =>
        simp only [modifyAt, List.get?]
        exact ih n m (fun hh => h (by rw [hh]))

theorem get?_modifyAt_eq (l : List α) (i : Nat) (f : α → α) :
    (modifyAt l i f).get? i = (l.get? i).map f := by
  induction l generalizing i with
  | nil => rfl
  | cons a rest ih =>
    cases i with
    | zero => rfl
    | succ n => simpa [modifyAt] using ih n

theorem mem_modifyAt (l : List α) (i : Nat) (f : α → α) (x : α)
    (h : x ∈ modifyAt l i f) : x ∈ l ∨ ∃ b, b ∈ l ∧ x = f b := by
  induction l generalizing i with
  | nil => cases h
  | cons a rest ih =>
    cases i with
    | zero =>
      rcases List.mem_cons.mp h with h | h
      · exact Or.inr ⟨a, List.mem_cons_self a rest, h⟩
      · exact Or.inl (List.mem_cons_of_mem a h)
    | succ n =>
      rcases List.mem_cons.mp h with h | h
      · exact Or.inl (h ▸ List.mem_cons_self a rest)
      · rcases ih n h with h' | ⟨b, hb, hx⟩
        · exact Or.inl (List.mem_cons_of_mem a h')
        · exact Or.inr ⟨b, List.mem_cons_of_mem a hb, hx⟩

theorem map_modifyAt_of_fix (l : List α) (i : Nat) (f : α → α) (g : α → β)
    (h : ∀ a, g (f a) = g a) : (modifyAt l i f).map g = l.map g := by
  induction l generalizing i with
  | nil => rfl
  | cons a rest ih =>
    cases i with
    | zero => simp [modifyAt, h]
    | succ n => simp [modifyAt, ih]

theorem modifyAt_congr_at (l : List α) (i : Nat) (f g : α → α) (a : α)
    (hget : l.get? i = some a) (hfg : f a = g a) :
    modifyAt l i f = modifyAt l i g := by
  induction l generalizing i with
  | nil => rfl
  | cons b rest ih =>
    cases i with
    | zero =>
      simp only [List.get?] at hget
      cases hget
      simp [modifyAt, hfg]
    | succ n =>
      simp only [List.get?] at hget
      simp [modifyAt, ih n hget]

theorem enumFrom_mem (l : List α) (n : Nat) (p : Nat × α) (h : p ∈ enumFrom n l) :
    n ≤ p.1 ∧ p.1 < n + l.length ∧ p.2 ∈ l := by
  induction l generalizing n with
  | nil => cases h
  | cons a rest ih =>
    rcases List.mem_cons.mp h with h | h
    · subst h
      refine ⟨Nat.le_refl _, ?_, List.mem_cons_self a rest⟩
      simp only [List.length_cons]
      omega
    · rcases ih (n + 1) h with ⟨h1, h2, h3⟩
      refine ⟨Nat.le_of_succ_le h1, ?_, List.mem_cons_of_mem a h3⟩
      simp only [List.length_cons]
      omega

theorem enumFrom_map (f : α → β) (l : List α) (n : Nat) :
    enumFrom n (l.map f) = (enumFrom n l).map fun p => (p.1, f p.2) := by
  induction l generalizing n with
  | nil => rfl
  | cons a rest ih => simp [enumFrom, ih]

theorem enumFrom_range' (j k : Nat) :
    enumFrom j (List.range' j k) = (List.range' j k).map fun c => (c, c) := by
  induction k generalizing j with
  | zero => rfl
  | succ m ih => simp [List.range', enumFrom, ih]

theorem moveAlternate_fst_subset (l : List α) : ∀ x ∈ (moveAlternate l).1, x ∈ l := by
  induction l using moveAlternate.induct with
  | case1 => intro x hx; cases hx
  | case2 a => intro x hx; simpa [moveAlternate] using hx
  | case3 a b rest ih =>
    intro x hx
    simp only [moveAlternate] at hx
    rcases List.mem_cons.mp hx with h | h
    · simp [h]
    · have := ih x h
      simp [this]

theorem moveAlternate_snd_subset (l : List α) : ∀ x ∈ (moveAlternate l).2, x ∈ l := by
  induction l using moveAlternate.induct with
  | case1 => intro x hx; cases hx
  | case2 a => intro x hx; cases hx
  | case3 a b rest ih =>
    intro x hx
    simp only [moveAlternate] at hx
    rcases List.mem_cons.mp hx with h | h
    · simp [h]
    · have := ih x h
      simp [this]

theorem foldlM_option_preserve (P : β → Prop) (f : β → α → Option β) :
    ∀ (l : List α) (b b' : β), l.foldlM f b = some b' →
      (∀ x a y, a ∈ l → f x a = some y → P x → P y) → P b → P b' := by
  intro l
  induction l with
  | nil =>
    intro b b' h _ hb
    simp [List.foldlM] at h
    cases h
    exact hb
  | cons a rest ih =>
    intro b b' h hstep hb
    rw [List.foldlM_cons] at h
    cases hfa : f b a with
    | none => rw [hfa] at h; cases h
    | some b1 =>
      rw [hfa] at h
      simp only [Option.bind_eq_bind, Option.some_bind] at h
      exact ih b1 b' h (fun x a' y ha' => hstep x a' y (List.mem_cons_of_mem a ha'))
        (hstep b a b1 (List.mem_cons_self a rest) hfa hb)

theorem foldlM_option_total (Inv : β → Prop) (f : β → α → Option β) :
    ∀ (l : List α) (b : β), Inv b →
      (∀ x a, a ∈ l → Inv x → ∃ y, f x a = some y ∧ Inv y) →
      ∃ b', l.foldlM f b = some b' ∧ Inv b' := by
  intro l
  induction l with
  | nil =>
    intro b hb _
    exact ⟨b, by simp [List.foldlM], hb⟩
  | cons a rest ih =>
    intro b hb hstep
    rcases hstep b a (List.mem_cons_self a rest) hb with ⟨b1, hfa, hb1⟩
    rcases ih b1 hb1 (fun x a' ha' => hstep x a' (List.mem_cons_of_mem a ha')) with ⟨b', hres, hb'⟩
    exact ⟨b', by rw [List.foldlM_cons, hfa]; simpa using hres, hb'⟩

theorem twoPhase_zero (f g : α → β) (l : List α) : twoPhase f g 0 l = l.map g := by
  simp [twoPhase]

theorem twoPhase_full (f g : α → β) (n : Nat) (l : List α) (h : l.length ≤ n) :
    twoPhase f g n l = l.map f := by
  simp [twoPhase, List.take_of_length_le h, List.drop_of_length_le h]

theorem twoPhase_get?_ge (f g : α → β) :
    ∀ (n i : Nat) (l : List α), n ≤ i →
      (twoPhase f g n l).get? i = (l.get? i).map g := by
  intro n
  induction n with
  | zero =>
    intro i l _
    simp only [twoPhase_zero]
    cases hgi : l.get? i with
    | none =>
      have hlen : l.length ≤ i := List.get?_eq_none.mp hgi
      have hmap : (l.map g).get? i = none := List.get?_eq_none.mpr (by simpa using hlen)
      rw [hmap]
      rfl
    | some a =>
      rw [List.get?_map, hgi]
  | succ m ih =>
    intro i l hle
    cases l with
    | nil => simp [twoPhase]
    | cons b rest =>
      cases i with
      | zero => omega
      | succ j =>
        have : (twoPhase f g (m + 1) (b :: rest)).get? (j + 1) =
            (twoPhase f g m rest).get? j := by
          simp [twoPhase, List.take_succ_cons, List.drop_succ_cons]
        rw [this, ih j rest (Nat.le_of_succ_le_succ hle)]
        rfl

theorem twoPhase_mem (f g : α → β) (n : Nat) (l : List α) (x : β)
    (h : x ∈ twoPhase f g n l) : (∃ a ∈ l, x = f a) ∨ (∃ a ∈ l, x = g a) := by
  unfold twoPhase at h
  rcases List.mem_append.mp h with h | h
  · rcases List.mem_map.mp h with ⟨a, ha, hx⟩
    exact Or.inl ⟨a, List.mem_of_mem_take ha, hx.symm⟩
  · rcases List.mem_map.mp h with ⟨a, ha, hx⟩
    exact Or.inr ⟨a, List.mem_of_mem_drop ha, hx.symm⟩

theorem twoPhase_length (f g : α → β) (n : Nat) (l : List α) :
    (twoPhase f g n l).length = l.length := by
  simp [twoPhase, List.length_take, List.length_drop]
  omega

theorem twoPhase_advance (f g : α → β) (n : Nat) (l : List α) (a : α)
    (hget : l.get? n = some a) :
    modifyAt (twoPhase f g n l) n (fun _ => f a) = twoPhase f g (n + 1) l := by
  induction l generalizing n with
  | nil => simp [List.get?] at hget
  | cons b rest ih =>
    cases n with
    | zero =>
      simp only [List.get?] at hget
      cases hget
      simp [twoPhase, modifyAt]
    | succ m =>
      simp only [List.get?] at hget
      have := ih m hget
      simpa [twoPhase, modifyAt, List.take_succ_cons, List.drop_succ_cons] using this

/-! ### Concrete documents used as witnesses and counterexamples -/

/-- A run with the given text and no direct formatting. -/
def plainRun (s : String) : Run :=
  ⟨s, ⟨none, none, none, none, none, none, none⟩⟩

/-- A paragraph holding one plain run. -/
def plainPara (s : String) : Paragraph :=
  ⟨none, none, [plainRun s]⟩

/-- A degenerate table with no rows and no grid columns (its schema-required
tblPr is present but empty). -/
def exTinyTbl : Tbl := ⟨some [], 0, []⟩

/-- A document whose body is just the degenerate table. -/
def exDocTiny : Doc := ⟨[.tbl exTinyTbl], [], [], [], []⟩

/-- The sole output document produced for exDocTiny: lines 76-78 clear the new
table's tblPr and move the original's (zero) children into it. -/
def exTinyOut : ExtractedDoc :=
  ⟨"table_1.docx", ⟨0, { defaultTemplate with body := [.tbl ⟨some [], 0, []⟩] }⟩⟩

/-- A 1x1 table whose only cell holds just a nested table. -/
def exNestTbl : Tbl := ⟨some [], 1, [⟨[⟨none, [.table ⟨"n"⟩]⟩]⟩]⟩

/-- A document whose sole top-level table carries a nested table. -/
def exDocN3 : Doc := ⟨[.tbl exNestTbl], [], [], [], []⟩

/-- A one-row table on a two-column grid whose single cell spans both grid
columns (a horizontal merge). -/
def exMergeTbl : Tbl := ⟨some [], 2, [⟨[⟨some [.gridSpan 2], [.para (plainPara "A")]⟩]⟩]⟩

/-- A document whose sole top-level table has a merged cell. -/
def exDocMerge : Doc := ⟨[.tbl exMergeTbl], [], [], [], []⟩

/-- A 1x1 table with one tblPr child and one tcPr child, to observe the moves. -/
def exMutTbl : Tbl :=
  ⟨some [.other "tblBorders"], 1, [⟨[⟨some [.other "shd"], [.para (plainPara "A")]⟩]⟩]⟩

/-- A document whose sole table carries formatting properties. -/
def exDocMut : Doc := ⟨[.tbl exMutTbl], [], [], [], []⟩


/-- The parsed original document as extraction leaves it: both property lists
emptied (their only children were moved into the output). -/
def exDocMutAfter : Doc :=
  ⟨[.tbl ⟨some [], 1, [⟨[⟨some [], [.para (plainPara "A")]⟩]⟩]⟩], [], [], [], []⟩

/-- The output produced for exDocMut: the moved tblPr and tcPr children now
live in the new table. -/
def exMutOut : ExtractedDoc :=
  ⟨"table_1.docx", ⟨0, { defaultTemplate with
    body := [.tbl ⟨some [.other "tblBorders"], 1,
      [⟨[⟨some [.other "shd"], [.para (plainPara "A")]⟩]⟩]⟩] }⟩⟩

/-- A document with auxiliary parts: one custom style, a numbering definition,
a media blob and a relationship entry. -/
def exDocParts : Doc :=
  ⟨[.tbl exTinyTbl], [⟨"Custom", .paragraph, false⟩], [7], ["media/image1.png"], ["rId5"]⟩

/-- A table referencing a custom table style and a custom paragraph style,
both defined in its own document's styles part. -/
def exStyTbl : Tbl :=
  ⟨some [.tblStyle "FancyTable"], 1,
    [⟨[⟨none, [.para ⟨none, some "FancyStyle", [plainRun "B"]⟩]⟩]⟩]⟩

/-- A document using custom styles that the default template does not define. -/
def exDocSty : Doc :=
  ⟨[.tbl exStyTbl], [⟨"FancyStyle", .paragraph, false⟩, ⟨"FancyTable", .table, false⟩], [], [], []⟩

/-- The output produced for exDocSty: it references FancyTable and FancyStyle
but carries only the default template's style definitions. -/
def exStyOut : ExtractedDoc :=
  ⟨"table_1.docx", ⟨0, { defaultTemplate with
    body := [.tbl ⟨some [.tblStyle "FancyTable"], 1,
      [⟨[⟨some [], [.para ⟨none, some "FancyStyle", [plainRun "B"]⟩]⟩]⟩]⟩] }⟩⟩

/-- The parsed exDocSty as extraction leaves it (its tblStyle child moved). -/
def exDocStyAfter : Doc :=
  ⟨[.tbl ⟨some [], 1, [⟨[⟨none, [.para ⟨none, some "FancyStyle", [plainRun "B"]⟩]⟩]⟩]⟩],
    [⟨"FancyStyle", .paragraph, false⟩, ⟨"FancyTable", .table, false⟩], [], [], []⟩

/-- A document with zero top-level tables but a table nested inside a
structured-content control. -/
def exDocSdtOnly : Doc := ⟨[.para (plainPara "p"), .sdt [.tbl exNestTbl]], [], [], [], []⟩

/-- A document with one top-level table holding a nested table, plus a control
wrapping another table. -/
def exDocC8 : Doc :=
  ⟨[.tbl ⟨some [], 1, [⟨[⟨none, [.para (plainPara "t"), .table ⟨"m"⟩]⟩]⟩]⟩,
    .sdt [.tbl exTinyTbl]],
    [], [], [], []⟩

/-- A uniform, merge-free 2x2 document used to witness content fidelity. -/
def exDocUniform : Doc :=
  ⟨[.tbl ⟨some [], 2,
      [⟨[⟨none, [.para (plainPara "A")]⟩, ⟨some [.other "shd"], [.para (plainPara "B")]⟩]⟩,
       ⟨[⟨none, []⟩, ⟨none, [.para (plainPara "D")]⟩]⟩]⟩],
    [⟨"Normal", .paragraph, true⟩], [], [], []⟩

/-! ### Characterisation of processOneTable -/

/-- The new table as it stands after add_table and the style assignment of
lines 26-30, before the cell loop runs (meaningful for tables whose tblPr is
present — processOneTable has already faulted otherwise). -/
def pOTinit (d : Doc) (t : Tbl) : Tbl :=
  let nt0 := mkNewTable t.rows.length t.gridCols
  match getStyleResolve d (tblStyleIdOf t) .table with
  | some s => { nt0 with tblPr := some (setTblStyleChildren s.id (nt0.tblPr.getD [])) }
  | none => nt0

/-- The tblPr replacement of lines 75-78 applied to the state after the cell
loop: the new table's tblPr is cleared and receives every other child of the
original's tblPr, which loses them. The none branch never arises on the states
processOneTable reaches (the cell loop preserves the original's tblPr, whose
absence already faulted at line 29). -/
def pOTfin (st : Tbl × Tbl) : Tbl × Tbl :=
  match st.1.tblPr with
  | none => st
  | some l =>
    ({ st.1 with tblPr := some (moveAlternate l).2 },
     { st.2 with tblPr := some (moveAlternate l).1 })

theorem copyCellAt_tblPr (d : Doc) (C : Nat) (st st' : Tbl × Tbl) (r c : Nat)
    (addr : Nat × Nat) (h : copyCellAt d C st r c addr = some st') :
    st'.1.tblPr = st.1.tblPr ∧ st'.2.tblPr = st.2.tblPr := by
  unfold copyCellAt at h
  cases hA : tblCellAt? st.2 C r c with
  | none => rw [hA] at h; cases h
  | some nAddr =>
    rw [hA] at h
    simp only at h
    cases hg : st.1.getTc? addr.1 addr.2 with
    | none => rw [hg] at h; cases h
    | some origTc =>
      rw [hg] at h
      simp only at h
      cases hPr : origTc.tcPr with
      | none => rw [hPr] at h; cases h; exact ⟨rfl, rfl⟩
      | some l => rw [hPr] at h; simp only at h; cases h; exact ⟨rfl, rfl⟩

theorem copyAllCells_tblPr (d : Doc) (R C : Nat) (st st' : Tbl × Tbl)
    (h : copyAllCells d R C st = some st') :
    st'.1.tblPr = st.1.tblPr ∧ st'.2.tblPr = st.2.tblPr := by
  have := foldlM_option_preserve
    (fun s => s.1.tblPr = st.1.tblPr ∧ s.2.tblPr = st.2.tblPr)
    (fun s r => copyRowCells d C r s) (List.range R) st st' h ?_ ⟨rfl, rfl⟩
  · exact this
  · intro x r y _ hstep hx
    have hstep2 : copyRowCells d C r x = some y := hstep
    unfold copyRowCells at hstep2
    cases hsnap : rowCellsSnapO x.1 r C with
    | none => rw [hsnap] at hstep2; cases hstep2
    | some snap =>
      rw [hsnap] at hstep2
      have := foldlM_option_preserve
        (fun s => s.1.tblPr = x.1.tblPr ∧ s.2.tblPr = x.2.tblPr)
        (fun (s : Tbl × Tbl) (ca : Nat × (Nat × Nat)) => copyCellAt d C s r ca.1 ca.2)
        _ x y hstep2 ?_ ⟨rfl, rfl⟩
      · exact ⟨this.1.trans hx.1, this.2.trans hx.2⟩
      · intro x' ca y' _ hstep' hx'
        have h' := copyCellAt_tblPr d C x' y' r ca.1 ca.2 hstep'
        exact ⟨h'.1.trans hx'.1, h'.2.trans hx'.2⟩

/-- A table processOneTable succeeds on carries its tblPr element. -/
theorem processOneTable_tblPr (d : Doc) (t : Tbl) (nd : Doc) (t' : Tbl)
    (h : processOneTable d t = some (nd, t')) : ∃ l0, t.tblPr = some l0 := by
  unfold processOneTable at h
  cases hPr : t.tblPr with
  | none => rw [hPr] at h; cases h
  | some l0 => exact ⟨l0, rfl⟩

theorem processOneTable_eq (d : Doc) (t : Tbl) (l0 : List TblPrChild)
    (hPr : t.tblPr = some l0) :
    processOneTable d t =
      (copyAllCells d t.rows.length t.gridCols (t, pOTinit d t)).map fun st =>
        ({ defaultTemplate with body := [BodyChild.tbl (pOTfin st).2] }, (pOTfin st).1) := by
  unfold processOneTable pOTinit
  rw [hPr]
  simp only
  cases hr : getStyleResolve d (tblStyleIdOf t) StyleType.table with
  | none =>
    cases hc : copyAllCells d t.rows.length t.gridCols
        (t, mkNewTable t.rows.length t.gridCols) with
    | none => simp [hc]
    | some st =>
      cases st with
      | mk ot nt =>
        have hot : ot.tblPr = some l0 := by
          have := (copyAllCells_tblPr d _ _ _ _ hc).1
          simpa [hPr] using this
        simp only [hc, Option.map_some', hot]
        unfold pOTfin
        simp only [hot]
        simp [defaultTemplate]
  | some s =>
    cases hc : copyAllCells d t.rows.length t.gridCols
        (t, { mkNewTable t.rows.length t.gridCols with
                tblPr := some (setTblStyleChildren s.id
                  ((mkNewTable t.rows.length t.gridCols).tblPr.getD [])) }) with
    | none => simp [hc]
    | some st =>
      cases st with
      | mk ot nt =>
        have hot : ot.tblPr = some l0 := by
          have := (copyAllCells_tblPr d _ _ _ _ hc).1
          simpa [hPr] using this
        simp only [hc, Option.map_some', hot]
        unfold pOTfin
        simp only [hot]
        simp [defaultTemplate]

theorem processOneTable_shape (d : Doc) (t : Tbl) (nd : Doc) (t' : Tbl)
    (h : processOneTable d t = some (nd, t')) :
    ∃ ft, nd = { defaultTemplate with body := [BodyChild.tbl ft] } := by
  rcases processOneTable_tblPr d t nd t' h with ⟨l0, hPr⟩
  rw [processOneTable_eq d t l0 hPr] at h
  cases hc : copyAllCells d t.rows.length t.gridCols (t, pOTinit d t) with
  | none => rw [hc] at h; cases h
  | some st =>
    rw [hc] at h
    simp only [Option.map_some'] at h
    exact ⟨(pOTfin st).2, by cases h; rfl⟩

/-! ### What extraction changes in the original: only tcPr and tblPr -/

theorem eraseTbl_tblPr (t : Tbl) (x : Option (List TblPrChild)) :
    eraseTbl { t with tblPr := x } = eraseTbl t := rfl

theorem eraseTbl_modifyTc (t : Tbl) (ri ti : Nat) (f : Tc → Tc)
    (h : ∀ tc, eraseTc (f tc) = eraseTc tc) :
    eraseTbl (t.modifyTc ri ti f) = eraseTbl t := by
  unfold eraseTbl Tbl.modifyTc
  simp only
  congr 1
  apply map_modifyAt_of_fix
  intro tr
  unfold eraseTr
  simp only
  congr 1
  exact map_modifyAt_of_fix tr.tcs ti f eraseTc h

theorem copyCellAt_erase (d : Doc) (C : Nat) (st st' : Tbl × Tbl) (r c : Nat)
    (addr : Nat × Nat) (h : copyCellAt d C st r c addr = some st') :
    eraseTbl st'.1 = eraseTbl st.1 := by
  unfold copyCellAt at h
  cases hA : tblCellAt? st.2 C r c with
  | none => rw [hA] at h; cases h
  | some nAddr =>
    rw [hA] at h
    simp only at h
    cases hg : st.1.getTc? addr.1 addr.2 with
    | none => rw [hg] at h; cases h
    | some origTc =>
      rw [hg] at h
      simp only at h
      cases hPr : origTc.tcPr with
      | none => rw [hPr] at h; cases h; rfl
      | some l =>
        rw [hPr] at h
        simp only at h
        cases h
        exact eraseTbl_modifyTc _ _ _ _ (fun tc => rfl)

theorem copyAllCells_erase (d : Doc) (R C : Nat) (st st' : Tbl × Tbl)
    (h : copyAllCells d R C st = some st') : eraseTbl st'.1 = eraseTbl st.1 := by
  have := foldlM_option_preserve (fun s => eraseTbl s.1 = eraseTbl st.1)
    (fun s r => copyRowCells d C r s) (List.range R) st st' h ?_ rfl
  · exact this
  · intro x r y _ hstep hx
    have hstep2 : copyRowCells d C r x = some y := hstep
    unfold copyRowCells at hstep2
    cases hsnap : rowCellsSnapO x.1 r C with
    | none => rw [hsnap] at hstep2; cases hstep2
    | some snap =>
      rw [hsnap] at hstep2
      have := foldlM_option_preserve (fun s => eraseTbl s.1 = eraseTbl x.1)
        (fun (s : Tbl × Tbl) (ca : Nat × (Nat × Nat)) => copyCellAt d C s r ca.1 ca.2)
        _ x y hstep2 ?_ rfl
      · rw [this, hx]
      · intro x' ca y' _ hstep' hx'
        rw [copyCellAt_erase d C x' y' r ca.1 ca.2 hstep', hx']

theorem processOneTable_erase (d : Doc) (t : Tbl) (nd : Doc) (t' : Tbl)
    (h : processOneTable d t = some (nd, t')) : eraseTbl t' = eraseTbl t := by
  rcases processOneTable_tblPr d t nd t' h with ⟨l0, hPr⟩
  rw [processOneTable_eq d t l0 hPr] at h
  cases hc : copyAllCells d t.rows.length t.gridCols (t, pOTinit d t) with
  | none => rw [hc] at h; cases h
  | some st =>
    rw [hc] at h
    simp only [Option.map_some'] at h
    have hfin : t' = (pOTfin st).1 := by cases h; rfl
    have h1 : eraseTbl (pOTfin st).1 = eraseTbl st.1 := by
      unfold pOTfin
      cases st.1.tblPr <;> simp [eraseTbl_tblPr]
    rw [hfin, h1, copyAllCells_erase d _ _ _ _ hc]

theorem extractBody_erase (d : Doc) (clock : Nat) :
    ∀ (body : List BodyChild) (i : Nat) (docs : List ExtractedDoc) (body' : List BodyChild),
      extractBody d clock body i = some (docs, body') →
      body'.map eraseBodyChild = body.map eraseBodyChild := by
  intro body
  induction body with
  | nil =>
    intro i docs body' h
    simp only [extractBody] at h
    cases h
    rfl
  | cons ch rest ih =>
    intro i docs body' h
    cases ch with
    | tbl t =>
      simp only [extractBody] at h
      cases hp : processOneTable d t with
      | none => rw [hp] at h; cases h
      | some p =>
        rw [hp] at h
        cases p with
        | mk nd t' =>
          simp only at h
          cases hr : extractBody d clock rest (i + 1) with
          | none => rw [hr] at h; cases h
          | some pr =>
            rw [hr] at h
            cases pr with
            | mk docs0 rest' =>
              simp only at h
              cases h
              simp only [List.map_cons, eraseBodyChild]
              rw [processOneTable_erase d t _ _ hp, ih _ _ _ hr]
    | para p =>
      simp only [extractBody] at h
      cases hr : extractBody d clock rest i with
      | none => rw [hr] at h; cases h
      | some pr =>
        rw [hr] at h
        cases pr with
        | mk docs0 rest' =>
          simp only at h
          cases h
          simp only [List.map_cons]
          rw [ih _ _ _ hr]
    | sdt blocks =>
      simp only [extractBody] at h
      cases hr : extractBody d clock rest i with
      | none => rw [hr] at h; cases h
      | some pr =>
        rw [hr] at h
        cases pr with
        | mk docs0 rest' =>
          simp only at h
          cases h
          simp only [List.map_cons]
          rw [ih _ _ _ hr]

/-! ### Outputs of extractBody -/

theorem extractBody_outputs (d : Doc) (clock : Nat) :
    ∀ (body : List BodyChild) (i : Nat) (docs : List ExtractedDoc) (body' : List BodyChild),
      extractBody d clock body i = some (docs, body') →
      ∀ o ∈ docs, ∃ t nd t', BodyChild.tbl t ∈ body ∧
        processOneTable d t = some (nd, t') ∧ o.content = saveDoc clock nd := by
  intro body
  induction body with
  | nil =>
    intro i docs body' h o ho
    simp only [extractBody] at h
    cases h
    cases ho
  | cons ch rest ih =>
    intro i docs body' h o ho
    cases ch with
    | tbl t =>
      simp only [extractBody] at h
      cases hp : processOneTable d t with
      | none => rw [hp] at h; cases h
      | some p =>
        rw [hp] at h
        cases p with
        | mk nd t' =>
          simp only at h
          cases hr : extractBody d clock rest (i + 1) with
          | none => rw [hr] at h; cases h
          | some pr =>
            rw [hr] at h
            cases pr with
            | mk docs0 rest' =>
              simp only at h
              cases h
              rcases List.mem_cons.mp ho with hh | hh
              · exact ⟨t, nd, t', List.mem_cons_self _ _, hp, by rw [hh]⟩
              · rcases ih _ _ _ hr o hh with ⟨t0, nd0, t0', hmem, hp0, hc0⟩
                exact ⟨t0, nd0, t0', List.mem_cons_of_mem _ hmem, hp0, hc0⟩
    | para p =>
      simp only [extractBody] at h
      cases hr : extractBody d clock rest i with
      | none => rw [hr] at h; cases h
      | some pr =>
        rw [hr] at h
        cases pr with
        | mk docs0 rest' =>
          simp only at h
          cases h
          rcases ih _ _ _ hr o ho with ⟨t0, nd0, t0', hmem, hp0, hc0⟩
          exact ⟨t0, nd0, t0', List.mem_cons_of_mem _ hmem, hp0, hc0⟩
    | sdt blocks =>
      simp only [extractBody] at h
      cases hr : extractBody d clock rest i with
      | none => rw [hr] at h; cases h
      | some pr =>
        rw [hr] at h
        cases pr with
        | mk docs0 rest' =>
          simp only at h
          cases h
          rcases ih _ _ _ hr o ho with ⟨t0, nd0, t0', hmem, hp0, hc0⟩
          exact ⟨t0, nd0, t0', List.mem_cons_of_mem _ hmem, hp0, hc0⟩

theorem extractFull_outputs (clock : Nat) (d : Doc) (out : List ExtractedDoc × Option String)
    (d' : Doc) (h : extractTablesFromDocxFull clock d = some (out, d')) :
    ∀ o ∈ out.1, ∃ t nd t', BodyChild.tbl t ∈ d.body ∧
      processOneTable d t = some (nd, t') ∧ o.content = saveDoc clock nd := by
  intro o ho
  unfold extractTablesFromDocxFull at h
  by_cases he : (docTables d).isEmpty
  · rw [if_pos he] at h
    cases h
    cases ho
  · rw [if_neg he] at h
    cases hr : extractBody d clock d.body 1 with
    | none => rw [hr] at h; cases h
    | some pr =>
      rw [hr] at h
      cases pr with
      | mk docs body' =>
        simp only at h
        cases h
        exact extractBody_outputs d clock d.body 1 docs body' hr o ho

/-! ### Claim C9 -/

/-- C9: for every input that parses correctly but contains zero top-level
tables, extraction returns the empty result set together with the descriptive
"no tables found" message, as a normal (non-failure) return and with the parsed
document untouched. -/
theorem no_tables_distinguished_result (clock : Nat) (d : Doc) (h : docTables d = []) :
    extractTablesFromDocxFull clock d = some (([], some noTablesMsg), d) := by
  unfold extractTablesFromDocxFull
  rw [h]
  rfl

/-- C9 witness: a document whose only table sits inside a structured-content
control has zero top-level tables and gets the distinguished empty result. -/
theorem no_tables_distinguished_result_witness :
    extractTablesFromDocxFull 0 exDocSdtOnly = some (([], some noTablesMsg), exDocSdtOnly) :=
  no_tables_distinguished_result 0 exDocSdtOnly rfl

/-! ### Claim C10 -/

/-- The clock-independent part of one output: its synthetic name and the
re-parsed content of its bytes. -/
def stripOutput (o : ExtractedDoc) : String × Doc :=
  (o.name, parsePackage o.content)

/-- The clock-independent part of a result pair. -/
def stripResult (r : List ExtractedDoc × Option String) :
    List (String × Doc) × Option String :=
  (r.1.map stripOutput, r.2)

theorem extractBody_clock (d : Doc) (c1 c2 : Nat) :
    ∀ (body : List BodyChild) (i : Nat),
      (extractBody d c1 body i).map (fun r => (r.1.map stripOutput, r.2)) =
      (extractBody d c2 body i).map (fun r => (r.1.map stripOutput, r.2)) := by
  intro body
  induction body with
  | nil => intro i; rfl
  | cons ch rest ih =>
    intro i
    cases ch with
    | tbl t =>
      simp only [extractBody]
      cases hp : processOneTable d t with
      | none => rfl
      | some p =>
        cases p with
        | mk nd t' =>
          simp only
          have hih := ih (i + 1)
          cases h1 : extractBody d c1 rest (i + 1) with
          | none =>
            cases h2 : extractBody d c2 rest (i + 1) with
            | none => rfl
            | some pr2 => rw [h1, h2] at hih; cases hih
          | some pr1 =>
            cases h2 : extractBody d c2 rest (i + 1) with
            | none => rw [h1, h2] at hih; cases hih
            | some pr2 =>
              rw [h1, h2] at hih
              simp only [Option.map_some'] at hih
              cases pr1 with
              | mk docs1 rest1 =>
                cases pr2 with
                | mk docs2 rest2 =>
                  simp only [Option.map_some']
                  simp only [Option.some.injEq, Prod.mk.injEq] at hih
                  obtain ⟨hd, hb⟩ := hih
                  simp [stripOutput, saveDoc, parsePackage, hd, hb]
    | para p =>
      simp only [extractBody]
      have hih := ih i
      cases h1 : extractBody d c1 rest i with
      | none =>
        cases h2 : extractBody d c2 rest i with
        | none => rfl
        | some pr2 => rw [h1, h2] at hih; cases hih
      | some pr1 =>
        cases h2 : extractBody d c2 rest i with
        | none => rw [h1, h2] at hih; cases hih
        | some pr2 =>
          rw [h1, h2] at hih
          simp only [Option.map_some'] at hih
          cases pr1 with
          | mk docs1 rest1 =>
            cases pr2 with
            | mk docs2 rest2 =>
              simp only [Option.map_some']
              simp only [Option.some.injEq, Prod.mk.injEq] at hih
              obtain ⟨hd, hb⟩ := hih
              simp [hd, hb]
    | sdt blocks =>
      simp only [extractBody]
      have hih := ih i
      cases h1 : extractBody d c1 rest i with
      | none =>
        cases h2 : extractBody d c2 rest i with
        | none => rfl
        | some pr2 => rw [h1, h2] at hih; cases hih
      | some pr1 =>
        cases h2 : extractBody d c2 rest i with
        | none => rw [h1, h2] at hih; cases hih
        | some pr2 =>
          rw [h1, h2] at hih
          simp only [Option.map_some'] at hih
          cases pr1 with
          | mk docs1 rest1 =>
            cases pr2 with
            | mk docs2 rest2 =>
              simp only [Option.map_some']
              simp only [Option.some.injEq, Prod.mk.injEq] at hih
              obtain ⟨hd, hb⟩ := hih
              simp [hd, hb]

/-- C10: extraction is deterministic: its observable outcome — the success or
failure, the error component, and for each output its name and the content its
bytes re-parse to — does not depend on when it runs (the zip timestamp is the
only clock-dependent part of the bytes), so two runs on the same input bytes
agree output by output under reparse-and-compare. -/
theorem extract_deterministic (c1 c2 : Nat) (d : Doc) :
    (extractTablesFromDocx c1 d).map stripResult =
      (extractTablesFromDocx c2 d).map stripResult := by
  unfold extractTablesFromDocx extractTablesFromDocxFull
  by_cases he : (docTables d).isEmpty
  · rw [if_pos he, if_pos he]
  · rw [if_neg he, if_neg he]
    have hih := extractBody_clock d c1 c2 d.body 1
    cases h1 : extractBody d c1 d.body 1 with
    | none =>
      cases h2 : extractBody d c2 d.body 1 with
      | none => rfl
      | some pr2 => rw [h1, h2] at hih; cases hih
    | some pr1 =>
      cases h2 : extractBody d c2 d.body 1 with
      | none => rw [h1, h2] at hih; cases hih
      | some pr2 =>
        rw [h1, h2] at hih
        cases pr1 with
        | mk docs1 rest1 =>
          cases pr2 with
          | mk docs2 rest2 =>
            simp only [Option.map_some', Option.some.injEq, Prod.mk.injEq] at hih
            obtain ⟨hd, hb⟩ := hih
            simp [stripResult, hd, hb]

/-! ### Claim C4 -/

/-- C4 (counterexample): extraction DOES mutate the parsed original input
document: for a one-cell table carrying one tblPr child and one tcPr child,
the parsed original left behind by the extraction differs from its initial
state — both property children were moved out into the output. -/
theorem extract_mutation_counterexample :
    (extractTablesFromDocxFull 0 exDocMut).map (·.2) = some exDocMutAfter ∧
      exDocMutAfter ≠ exDocMut := by
  constructor
  · rfl
  · decide

/-- C4 (amended): the mutation of the parsed original is confined to the tcPr
and tblPr property children of top-level tables, which the code moves (not
clones) into outputs; erasing exactly those properties, the original document
is unchanged by extraction — body structure, cell contents, paragraphs, runs,
nested tables and auxiliary parts are never touched. -/
theorem extract_mutation_scope (clock : Nat) (d : Doc)
    (out : List ExtractedDoc × Option String) (d' : Doc)
    (h : extractTablesFromDocxFull clock d = some (out, d')) :
    eraseDoc d' = eraseDoc d := by
  unfold extractTablesFromDocxFull at h
  by_cases he : (docTables d).isEmpty
  · rw [if_pos he] at h
    cases h
    rfl
  · rw [if_neg he] at h
    cases hr : extractBody d clock d.body 1 with
    | none => rw [hr] at h; cases h
    | some pr =>
      rw [hr] at h
      cases pr with
      | mk docs body' =>
        simp only at h
        cases h
        have := extractBody_erase d clock d.body 1 docs body' hr
        simp only [eraseDoc]
        rw [this]

/-- C4 witness: the mutation-scope theorem applied to the concrete mutated
document: erasing the movable properties equates the before and after states. -/
theorem extract_mutation_scope_witness :
    eraseDoc exDocMutAfter = eraseDoc exDocMut :=
  extract_mutation_scope 0 exDocMut ([exMutOut], none) exDocMutAfter rfl

/-! ### Claim C3 -/

/-- C3 (counterexample): an extracted output does NOT reopen to a table
identical to the originally selected one: for a table whose cell holds a
nested table, the original shows the nested table and the reopened output has
none (the copy loop only copies paragraphs). -/
theorem extract_roundtrip_identical_counterexample :
    (docTables exDocN3).map nestedTablesOf = [[⟨"n"⟩]] ∧
      (extractTablesFromDocxFull 0 exDocN3).map
        (fun r => r.1.1.map fun o => (docTables (parsePackage o.content)).map nestedTablesOf) =
        some [[[]]] := by
  constructor
  · rfl
  · rfl

/-- C3 (amended): re-parsing any extracted output yields a package whose
topology classification reports exactly one top-level table; identity of
content and formatting with the originally selected table does not hold in
general (nested tables are dropped and merges are rebuilt). -/
theorem extract_roundtrip_one_table (clock : Nat) (d : Doc)
    (out : List ExtractedDoc × Option String) (d' : Doc)
    (h : extractTablesFromDocxFull clock d = some (out, d'))
    (o : ExtractedDoc) (ho : o ∈ out.1) :
    (docTables (parsePackage o.content)).length = 1 := by
  rcases extractFull_outputs clock d out d' h o ho with ⟨t, nd, t', _, hp, hc⟩
  rcases processOneTable_shape d t nd t' hp with ⟨ft, hnd⟩
  rw [hc, hnd]
  rfl

/-- C3 witness: the round-trip theorem applied to the degenerate one-table
document and its concrete output. -/
theorem extract_roundtrip_one_table_witness :
    (docTables (parsePackage exTinyOut.content)).length = 1 :=
  extract_roundtrip_one_table 0 exDocTiny ([exTinyOut], none) exDocTiny rfl
    exTinyOut (List.mem_singleton.mpr rfl)

/-! ### Claim C5 -/

/-- C5 (counterexample): outputs do NOT retain the original's auxiliary parts:
for an input carrying a media blob, a numbering definition, a custom style and
a relationship entry, the extracted output package contains none of them. -/
theorem extract_retain_parts_counterexample :
    exDocParts.mediaParts = ["media/image1.png"] ∧
      (extractTablesFromDocxFull 0 exDocParts).map
        (fun r => r.1.1.map fun o => (parsePackage o.content).mediaParts) = some [[]] ∧
      (extractTablesFromDocxFull 0 exDocParts).map
        (fun r => r.1.1.map fun o => (parsePackage o.content).numberingIds) = some [[]] := by
  refine ⟨rfl, rfl, rfl⟩

/-- C5 (amended): every extracted output package carries exactly the default
template's auxiliary parts — the template's styles and base relationships, no
media and no numbering — regardless of the input document's parts. -/
theorem extract_outputs_template_parts (clock : Nat) (d : Doc)
    (out : List ExtractedDoc × Option String) (d' : Doc)
    (h : extractTablesFromDocxFull clock d = some (out, d'))
    (o : ExtractedDoc) (ho : o ∈ out.1) :
    (parsePackage o.content).styles = defaultTemplate.styles ∧
      (parsePackage o.content).mediaParts = [] ∧
      (parsePackage o.content).numberingIds = [] ∧
      (parsePackage o.content).relationshipIds = defaultTemplate.relationshipIds := by
  rcases extractFull_outputs clock d out d' h o ho with ⟨t, nd, t', _, hp, hc⟩
  rcases processOneTable_shape d t nd t' hp with ⟨ft, hnd⟩
  rw [hc, hnd]
  exact ⟨rfl, rfl, rfl, rfl⟩

/-- C5 witness: the template-parts theorem applied to the document with
auxiliary parts and its concrete output. -/
theorem extract_outputs_template_parts_witness :
    (parsePackage exTinyOut.content).styles = defaultTemplate.styles ∧
      (parsePackage exTinyOut.content).mediaParts = [] ∧
      (parsePackage exTinyOut.content).numberingIds = [] ∧
      (parsePackage exTinyOut.content).relationshipIds = defaultTemplate.relationshipIds :=
  extract_outputs_template_parts 0 exDocParts ([exTinyOut], none) exDocParts rfl
    exTinyOut (List.mem_singleton.mpr rfl)

/-! ### Counterexamples for C2, C6 and C8 -/

/-- C2 (counterexample): the merge pattern of an extracted table does NOT
match the original: a one-row table whose single cell spans both grid columns
comes back as two cells, the first claiming a span of 2 and the second a
span of 1, and the merged content is duplicated into positions it never
occupied. -/
theorem extract_merge_pattern_counterexample :
    (docTables exDocMerge).map mergePattern = [[[2]]] ∧
      (extractTablesFromDocxFull 0 exDocMerge).map
        (fun r => r.1.1.map fun o => (docTables (parsePackage o.content)).map mergePattern) =
        some [[[[2, 1]]]] := by
  constructor
  · rfl
  · rfl

/-- C6 (counterexample): an extracted output CAN have dangling style
references: the input defines and uses the styles FancyTable and FancyStyle
(no dangling reference in the input), while its extracted output references
both ids but defines neither, since the output carries only the default
template's styles. -/
theorem extract_dangling_style_counterexample :
    hasDanglingStyleRef exDocSty = false ∧
      (extractTablesFromDocxFull 0 exDocSty).map
        (fun r => r.1.1.map fun o => hasDanglingStyleRef (parsePackage o.content)) =
        some [true] := by
  constructor
  · rfl
  · rfl

/-- C8 (counterexample): a table nested inside a cell of a matched top-level
table is indeed not separately enumerated, but it does NOT travel with the
matched table's subtree: the sole output of this one-table document reopens
with no nested table at all. -/
theorem nested_tables_travel_counterexample :
    (docTables exDocC8).length = 1 ∧
      (docTables exDocC8).map nestedTablesOf = [[⟨"m"⟩]] ∧
      (extractTablesFromDocxFull 0 exDocC8).map
        (fun r => r.1.1.map fun o => (docTables (parsePackage o.content)).map nestedTablesOf) =
        some [[[]]] := by
  refine ⟨rfl, rfl, rfl⟩

/-! ### Totality of the extraction loop on well-formed inputs -/

/-- Every gridSpan child of this cell's tcPr is positive. -/
def tcSpanPos (tc : Tc) : Prop :=
  ∀ ch ∈ tc.tcPr.getD [], spanOkChild ch = true

/-- Every gridSpan child of every cell of the table is positive. -/
def TblSpanPos (t : Tbl) : Prop :=
  ∀ tr ∈ t.rows, ∀ tc ∈ tr.tcs, tcSpanPos tc

/-- The table has R rows, each carrying exactly C tc elements. -/
def TblShape (t : Tbl) (R C : Nat) : Prop :=
  t.rows.length = R ∧ ∀ tr ∈ t.rows, tr.tcs.length = C

/-- No child of this cell's tcPr is a vertical-merge continuation marker. -/
def tcVmOk (tc : Tc) : Prop :=
  ∀ ch ∈ tc.tcPr.getD [], vmOkChild ch = true

/-- No cell of the table is a vertical-merge continuation. -/
def TblVmOk (t : Tbl) : Prop :=
  ∀ tr ∈ t.rows, ∀ tc ∈ tr.tcs, tcVmOk tc

theorem firstVMerge_mem (l : List TcPrChild) (b : Bool) (h : firstVMerge l = some b) :
    TcPrChild.vMerge b ∈ l := by
  induction l with
  | nil => cases h
  | cons ch rest ih =>
    cases ch with
    | vMerge r =>
      simp only [firstVMerge] at h
      cases h
      exact List.mem_cons_self _ _
    | gridSpan n =>
      simp only [firstVMerge] at h
      exact List.mem_cons_of_mem _ (ih h)
    | other s =>
      simp only [firstVMerge] at h
      exact List.mem_cons_of_mem _ (ih h)

theorem vMergeContinue_eq_false (tc : Tc) (h : tcVmOk tc) : vMergeContinue tc = false := by
  unfold vMergeContinue
  cases hf : firstVMerge (tc.tcPr.getD []) with
  | none => rfl
  | some restart =>
    have h1 := h _ (firstVMerge_mem _ restart hf)
    simp only [vmOkChild] at h1
    rw [h1]
    rfl

theorem negIndex_concat (l : List α) (a : α) : negIndex (l ++ [a]) 1 = some a := by
  unfold negIndex
  rw [if_neg (by omega), if_pos (by simp)]
  simp only [List.length_append, List.length_singleton]
  have h1 : l.length + 1 - 1 = l.length := by omega
  rw [h1]
  exact List.get?_concat_length l a

theorem dupFold (ri ti : Nat) :
    ∀ (ks : List Nat), (∀ k ∈ ks, 0 < k) → ∀ (cells : List (Nat × Nat)),
      ks.foldlM (fun cs gi =>
        if 0 < gi then (negIndex cs 1).map fun a => cs ++ [a]
        else some (cs ++ [(ri, ti)])) (cells ++ [(ri, ti)])
      = some (cells ++ (ri, ti) :: List.replicate ks.length (ri, ti)) := by
  intro ks
  induction ks with
  | nil =>
    intro _ cells
    simp [List.foldlM]
  | cons k rest ih =>
    intro hpos cells
    rw [List.foldlM_cons]
    rw [if_pos (hpos k (List.mem_cons_self _ _)), negIndex_concat]
    simp only [Option.map_some', Option.bind_eq_bind, Option.some_bind]
    have h1 := ih (fun k' hk' => hpos k' (List.mem_cons_of_mem _ hk')) (cells ++ [(ri, ti)])
    rw [h1]
    simp [List.replicate_succ, List.append_assoc]

theorem appendTcCells_noVm (C ri ti : Nat) (tc : Tc) (cells : List (Nat × Nat))
    (hv : vMergeContinue tc = false) :
    appendTcCells C ri ti tc cells =
      some (cells ++ List.replicate (gridSpanOf tc) (ri, ti)) := by
  unfold appendTcCells
  simp only [hv, Bool.false_eq_true, if_false]
  cases hn : gridSpanOf tc with
  | zero => simp [List.foldlM]
  | succ n =>
    rw [List.range_succ_eq_map, List.foldlM_cons, if_neg (Nat.lt_irrefl 0)]
    simp only [Option.bind_eq_bind, Option.some_bind]
    have h1 := dupFold ri ti ((List.range n).map Nat.succ)
      (fun k hk => by
        rcases List.mem_map.mp hk with ⟨m, _, hm⟩
        omega) cells
    rw [h1]
    simp [List.replicate_succ]

theorem appendRowCells_noVm (C ri : Nat) :
    ∀ (tcs : List Tc) (ti : Nat) (cells : List (Nat × Nat)),
      (∀ tc ∈ tcs, vMergeContinue tc = false) →
      appendRowCells C ri ti tcs cells = some (cells ++ expandTcs ri ti tcs) := by
  intro tcs
  induction tcs with
  | nil => intro ti cells _; simp [appendRowCells, expandTcs]
  | cons tc rest ih =>
    intro ti cells hv
    simp only [appendRowCells,
      appendTcCells_noVm C ri ti tc cells (hv tc (List.mem_cons_self _ _))]
    rw [ih (ti + 1) _ (fun tc' h' => hv tc' (List.mem_cons_of_mem _ h'))]
    simp [expandTcs, List.append_assoc]

theorem cellsAuxO_noVm (C : Nat) :
    ∀ (rows : List Tr) (ri : Nat) (cells : List (Nat × Nat)),
      (∀ tr ∈ rows, ∀ tc ∈ tr.tcs, vMergeContinue tc = false) →
      cellsAuxO C ri rows cells = some (cells ++ cellsAux ri rows) := by
  intro rows
  induction rows with
  | nil => intro ri cells _; simp [cellsAuxO, cellsAux]
  | cons tr rest ih =>
    intro ri cells hv
    simp only [cellsAuxO,
      appendRowCells_noVm C ri tr.tcs 0 cells (hv tr (List.mem_cons_self _ _))]
    rw [ih (ri + 1) _ (fun tr' h' => hv tr' (List.mem_cons_of_mem _ h'))]
    simp [cellsAux, List.append_assoc]

/-- On a table without vertical-merge continuations the _cells computation
succeeds and is the pure gridSpan expansion. -/
theorem tblCellsO_noVm (t : Tbl)
    (h : ∀ tr ∈ t.rows, ∀ tc ∈ tr.tcs, vMergeContinue tc = false) :
    tblCellsO t = some (tblCells t) := by
  unfold tblCellsO tblCells
  rw [cellsAuxO_noVm t.gridCols t.rows 0 [] h]
  rfl

theorem TblVmOk_vmFalse (t : Tbl) (h : TblVmOk t) :
    ∀ tr ∈ t.rows, ∀ tc ∈ tr.tcs, vMergeContinue tc = false :=
  fun tr htr tc htc => vMergeContinue_eq_false tc (h tr htr tc htc)

theorem tblCellsO_of_vmOk (t : Tbl) (h : TblVmOk t) : tblCellsO t = some (tblCells t) :=
  tblCellsO_noVm t (TblVmOk_vmFalse t h)

theorem rowCellsSnapO_of_vmOk (t : Tbl) (r C : Nat) (h : TblVmOk t) :
    rowCellsSnapO t r C = some (rowCellsSnap t r C) := by
  unfold rowCellsSnapO rowCellsSnap
  rw [tblCellsO_of_vmOk t h]
  rfl

theorem tblCellAt?_of_vmOk (t : Tbl) (C r c : Nat) (h : TblVmOk t) :
    tblCellAt? t C r c = (tblCells t).get? (r * C + c) := by
  unfold tblCellAt?
  rw [tblCellsO_of_vmOk t h]
  rfl

theorem copyRowCells_eq_of_snap (d : Doc) (C r : Nat) (st : Tbl × Tbl)
    (snap : List (Nat × Nat)) (hsnap : rowCellsSnapO st.1 r C = some snap) :
    copyRowCells d C r st =
      (enumFrom 0 snap).foldlM (fun s ca => copyCellAt d C s r ca.1 ca.2) st := by
  unfold copyRowCells
  rw [hsnap]

theorem TblVmOk_modifyTc (t : Tbl) (ri ti : Nat) (f : Tc → Tc)
    (h : TblVmOk t) (hf : ∀ tc, tcVmOk tc → tcVmOk (f tc)) :
    TblVmOk (t.modifyTc ri ti f) := by
  intro tr htr tc htc
  unfold Tbl.modifyTc at htr
  simp only at htr
  rcases mem_modifyAt _ _ _ _ htr with h' | ⟨tr0, htr0, heq⟩
  · exact h tr h' tc htc
  · rw [heq] at htc
    simp only at htc
    rcases mem_modifyAt _ _ _ _ htc with h'' | ⟨tc0, htc0, heq'⟩
    · exact h tr0 htr0 tc h''
    · rw [heq']
      exact hf tc0 (h tr0 htr0 tc0 htc0)

theorem firstGridSpan_mem (l : List TcPrChild) (n : Nat) (h : firstGridSpan l = some n) :
    TcPrChild.gridSpan n ∈ l := by
  induction l with
  | nil => cases h
  | cons ch rest ih =>
    cases ch with
    | gridSpan m =>
      simp only [firstGridSpan] at h
      cases h
      exact List.mem_cons_self _ _
    | vMerge r =>
      simp only [firstGridSpan] at h
      exact List.mem_cons_of_mem _ (ih h)
    | other s =>
      simp only [firstGridSpan] at h
      exact List.mem_cons_of_mem _ (ih h)

theorem gridSpanOf_pos (tc : Tc) (h : tcSpanPos tc) : 1 ≤ gridSpanOf tc := by
  unfold gridSpanOf
  cases hf : firstGridSpan (tc.tcPr.getD []) with
  | none => simp
  | some n =>
    have h1 := h _ (firstGridSpan_mem _ n hf)
    simp only [spanOkChild] at h1
    have h2 : n ≠ 0 := by simpa using h1
    simp only [Option.getD_some]
    omega

theorem expandTcs_length_ge (ri : Nat) (tcs : List Tc) (h : ∀ tc ∈ tcs, 1 ≤ gridSpanOf tc) :
    ∀ ti, tcs.length ≤ (expandTcs ri ti tcs).length := by
  induction tcs with
  | nil => intro ti; simp [expandTcs]
  | cons tc rest ih =>
    intro ti
    simp only [expandTcs, List.length_append, List.length_replicate, List.length_cons]
    have h1 := h tc (List.mem_cons_self _ _)
    have h2 := ih (fun tc' htc' => h tc' (List.mem_cons_of_mem _ htc')) (ti + 1)
    omega

theorem cellsAux_length_ge (C : Nat) :
    ∀ (rows : List Tr) (ri : Nat),
      (∀ tr ∈ rows, tr.tcs.length = C) →
      (∀ tr ∈ rows, ∀ tc ∈ tr.tcs, tcSpanPos tc) →
      rows.length * C ≤ (cellsAux ri rows).length := by
  intro rows
  induction rows with
  | nil => intro ri _ _; simp [cellsAux]
  | cons tr rest ih =>
    intro ri hshape hspan
    simp only [cellsAux, List.length_append, List.length_cons]
    have h1 : tr.tcs.length ≤ (expandTcs ri 0 tr.tcs).length :=
      expandTcs_length_ge ri tr.tcs
        (fun tc htc => gridSpanOf_pos tc (hspan tr (List.mem_cons_self _ _) tc htc)) 0
    have h2 := ih (ri + 1) (fun tr' h => hshape tr' (List.mem_cons_of_mem _ h))
      (fun tr' h => hspan tr' (List.mem_cons_of_mem _ h))
    have h3 := hshape tr (List.mem_cons_self _ _)
    calc (rest.length + 1) * C = rest.length * C + C := by rw [Nat.succ_mul]
    _ ≤ (cellsAux (ri + 1) rest).length + tr.tcs.length := by omega
    _ ≤ (cellsAux (ri + 1) rest).length + (expandTcs ri 0 tr.tcs).length := by omega
    _ = (expandTcs ri 0 tr.tcs).length + (cellsAux (ri + 1) rest).length := by omega

theorem tblCells_length_ge (t : Tbl) (R C : Nat) (hshape : TblShape t R C)
    (hspan : TblSpanPos t) : R * C ≤ (tblCells t).length := by
  obtain ⟨hlen, hrow⟩ := hshape
  unfold tblCells
  rw [← hlen]
  exact cellsAux_length_ge C t.rows 0 hrow hspan

theorem expandTcs_mem (ri : Nat) (tcs : List Tc) (p : Nat × Nat) :
    ∀ ti, p ∈ expandTcs ri ti tcs →
      p.1 = ri ∧ ∃ k tc, tcs.get? k = some tc ∧ p.2 = ti + k := by
  induction tcs with
  | nil => intro ti h; cases h
  | cons tc rest ih =>
    intro ti h
    simp only [expandTcs] at h
    rcases List.mem_append.mp h with h | h
    · have := List.eq_of_mem_replicate h
      subst this
      exact ⟨rfl, 0, tc, rfl, by omega⟩
    · rcases ih (ti + 1) h with ⟨h1, k, tc', hget, h2⟩
      exact ⟨h1, k + 1, tc', hget, by omega⟩

theorem cellsAux_mem (rows : List Tr) (p : Nat × Nat) :
    ∀ ri, p ∈ cellsAux ri rows →
      ∃ j tr tc, rows.get? j = some tr ∧ p.1 = ri + j ∧ tr.tcs.get? p.2 = some tc := by
  induction rows with
  | nil => intro ri h; cases h
  | cons tr rest ih =>
    intro ri h
    simp only [cellsAux] at h
    rcases List.mem_append.mp h with h | h
    · rcases expandTcs_mem ri tr.tcs p 0 h with ⟨h1, k, tc, hget, h2⟩
      refine ⟨0, tr, tc, rfl, by omega, ?_⟩
      rw [h2]
      simpa using hget
    · rcases ih (ri + 1) h with ⟨j, tr', tc, hget, h1, h2⟩
      exact ⟨j + 1, tr', tc, by simpa using hget, by omega, h2⟩

theorem mem_tblCells_getTc (t : Tbl) (p : Nat × Nat) (h : p ∈ tblCells t) :
    ∃ tc, t.getTc? p.1 p.2 = some tc := by
  rcases cellsAux_mem t.rows p 0 h with ⟨j, tr, tc, hget, h1, h2⟩
  refine ⟨tc, ?_⟩
  unfold Tbl.getTc?
  have : p.1 = j := by omega
  rw [this, hget]
  exact h2

theorem TblShape_modifyTc (t : Tbl) (R C ri ti : Nat) (f : Tc → Tc)
    (h : TblShape t R C) : TblShape (t.modifyTc ri ti f) R C := by
  obtain ⟨hlen, hrow⟩ := h
  constructor
  · unfold Tbl.modifyTc
    simp only
    rw [length_modifyAt]
    exact hlen
  · intro tr htr
    unfold Tbl.modifyTc at htr
    simp only at htr
    rcases mem_modifyAt _ _ _ _ htr with h | ⟨tr0, htr0, heq⟩
    · exact hrow tr h
    · rw [heq]
      simp only
      rw [length_modifyAt]
      exact hrow tr0 htr0

theorem TblSpanPos_modifyTc (t : Tbl) (ri ti : Nat) (f : Tc → Tc)
    (h : TblSpanPos t) (hf : ∀ tc, tcSpanPos tc → tcSpanPos (f tc)) :
    TblSpanPos (t.modifyTc ri ti f) := by
  intro tr htr tc htc
  unfold Tbl.modifyTc at htr
  simp only at htr
  rcases mem_modifyAt _ _ _ _ htr with h' | ⟨tr0, htr0, heq⟩
  · exact h tr h' tc htc
  · rw [heq] at htc
    simp only at htc
    rcases mem_modifyAt _ _ _ _ htc with h'' | ⟨tc0, htc0, heq'⟩
    · exact h tr0 htr0 tc h''
    · rw [heq']
      exact hf tc0 (h tr0 htr0 tc0 htc0)

theorem getTc?_modifyTc_some (t : Tbl) (ri ti a b : Nat) (f : Tc → Tc) (tc : Tc)
    (h : t.getTc? a b = some tc) :
    ∃ tc', (t.modifyTc ri ti f).getTc? a b = some tc' := by
  unfold Tbl.getTc? at h ⊢
  unfold Tbl.modifyTc
  simp only
  cases hga : t.rows.get? a with
  | none => rw [hga] at h; cases h
  | some tr =>
    rw [hga] at h
    simp only [Option.some_bind] at h
    by_cases hai : ri = a
    · subst hai
      rw [get?_modifyAt_eq, hga]
      simp only [Option.map_some', Option.some_bind]
      by_cases hbi : ti = b
      · subst hbi
        rw [get?_modifyAt_eq, h]
        exact ⟨f tc, rfl⟩
      · rw [get?_modifyAt_ne _ _ _ _ hbi, h]
        exact ⟨tc, rfl⟩
    · rw [get?_modifyAt_ne _ _ _ _ hai, hga]
      simp only [Option.some_bind]
      exact ⟨tc, h⟩

theorem getTc?_mem (t : Tbl) (a b : Nat) (tc : Tc) (h : t.getTc? a b = some tc) :
    ∃ tr, tr ∈ t.rows ∧ tc ∈ tr.tcs := by
  unfold Tbl.getTc? at h
  cases hga : t.rows.get? a with
  | none => rw [hga] at h; cases h
  | some tr =>
    rw [hga] at h
    simp only [Option.some_bind] at h
    exact ⟨tr, List.get?_mem hga, List.get?_mem h⟩

/-- The value copyCellAt produces when both cell lookups succeed. -/
def copyCellAtResult (d : Doc) (st : Tbl × Tbl) (nA : Nat × Nat) (origTc : Tc)
    (addr : Nat × Nat) : Tbl × Tbl :=
  let nt := st.2.modifyTc nA.1 nA.2 fun tc => { tc with content := [] }
  let nt := nt.modifyTc nA.1 nA.2 fun tc => { tc with content := copiedCellContent d origTc }
  let nt := nt.modifyTc nA.1 nA.2 fun tc => { tc with tcPr := some (tc.tcPr.getD []) }
  match origTc.tcPr with
  | none => (st.1, nt)
  | some l =>
    let mv := moveAlternate l
    (st.1.modifyTc addr.1 addr.2 fun tc => { tc with tcPr := some mv.2 },
     nt.modifyTc nA.1 nA.2 fun tc => { tc with tcPr := some (tc.tcPr.getD [] ++ mv.1) })

theorem copyCellAt_eq_some (d : Doc) (C : Nat) (st : Tbl × Tbl) (r c : Nat)
    (addr nA : Nat × Nat) (origTc : Tc)
    (hA : tblCellAt? st.2 C r c = some nA) (hO : st.1.getTc? addr.1 addr.2 = some origTc) :
    copyCellAt d C st r c addr = some (copyCellAtResult d st nA origTc addr) := by
  simp only [copyCellAt, copyCellAtResult, hA, hO]
  cases origTc.tcPr <;> rfl

/-- The invariant threaded through the copy loops: the new table keeps its
R x C shape, positive spans and no vertical-merge continuations, the original
keeps positive spans and no vertical-merge continuations, and every cell
address valid in the row-snapshot base table stays valid. -/
def CopyInv (base : Tbl) (R C : Nat) (st : Tbl × Tbl) : Prop :=
  TblShape st.2 R C ∧ TblSpanPos st.2 ∧ TblSpanPos st.1 ∧
    TblVmOk st.2 ∧ TblVmOk st.1 ∧
    (∀ a b tc, base.getTc? a b = some tc → ∃ tc', st.1.getTc? a b = some tc')

theorem copyCellAt_total (d : Doc) (base : Tbl) (R C : Nat) (st : Tbl × Tbl) (r c : Nat)
    (addr : Nat × Nat) (hInv : CopyInv base R C st) (hr : r < R) (hc : c < C)
    (haddr : ∃ tc, base.getTc? addr.1 addr.2 = some tc) :
    ∃ st', copyCellAt d C st r c addr = some st' ∧ CopyInv base R C st' := by
  obtain ⟨hShape, hSpanN, hSpanO, hVmN, hVmO, hVal⟩ := hInv
  have hbound : r * C + c < R * C := by
    have h1 : r * C + c < (r + 1) * C := by
      rw [Nat.succ_mul]
      omega
    have h2 : (r + 1) * C ≤ R * C := Nat.mul_le_mul_right C hr
    omega
  have hlen : r * C + c < (tblCells st.2).length :=
    Nat.lt_of_lt_of_le hbound (tblCells_length_ge st.2 R C hShape hSpanN)
  have hA : ∃ a, tblCellAt? st.2 C r c = some a := by
    rw [tblCellAt?_of_vmOk st.2 C r c hVmN]
    exact ⟨_, List.get?_eq_get hlen⟩
  obtain ⟨nA, hA⟩ := hA
  obtain ⟨tc0, htc0⟩ := haddr
  obtain ⟨origTc, hO⟩ := hVal addr.1 addr.2 tc0 htc0
  refine ⟨copyCellAtResult d st nA origTc addr, copyCellAt_eq_some d C st r c addr nA origTc hA hO, ?_⟩
  have hOrigSpan : tcSpanPos origTc := by
    rcases getTc?_mem st.1 addr.1 addr.2 origTc hO with ⟨tr, htr, htc⟩
    exact hSpanO tr htr origTc htc
  have hOrigVm : tcVmOk origTc := by
    rcases getTc?_mem st.1 addr.1 addr.2 origTc hO with ⟨tr, htr, htc⟩
    exact hVmO tr htr origTc htc
  unfold copyCellAtResult
  cases hPr : origTc.tcPr with
  | none =>
    refine ⟨?_, ?_, hSpanO, ?_, hVmO, fun a b tc h => hVal a b tc h⟩
    · exact TblShape_modifyTc _ _ _ _ _ _ (TblShape_modifyTc _ _ _ _ _ _
        (TblShape_modifyTc _ _ _ _ _ _ hShape))
    · exact TblSpanPos_modifyTc _ _ _ _ (TblSpanPos_modifyTc _ _ _ _
        (TblSpanPos_modifyTc _ _ _ _ hSpanN (fun _ h => h)) (fun _ h => h)) (fun _ h => h)
    · exact TblVmOk_modifyTc _ _ _ _ (TblVmOk_modifyTc _ _ _ _
        (TblVmOk_modifyTc _ _ _ _ hVmN (fun _ h => h)) (fun _ h => h)) (fun _ h => h)
  | some l =>
    have hmv1 : ∀ ch ∈ (moveAlternate l).1, spanOkChild ch = true := by
      intro ch hch
      apply hOrigSpan
      rw [hPr]
      exact moveAlternate_fst_subset l ch hch
    have hmv2 : ∀ ch ∈ (moveAlternate l).2, spanOkChild ch = true := by
      intro ch hch
      apply hOrigSpan
      rw [hPr]
      exact moveAlternate_snd_subset l ch hch
    have hvm1 : ∀ ch ∈ (moveAlternate l).1, vmOkChild ch = true := by
      intro ch hch
      apply hOrigVm
      rw [hPr]
      exact moveAlternate_fst_subset l ch hch
    have hvm2 : ∀ ch ∈ (moveAlternate l).2, vmOkChild ch = true := by
      intro ch hch
      apply hOrigVm
      rw [hPr]
      exact moveAlternate_snd_subset l ch hch
    refine ⟨?_, ?_, ?_, ?_, ?_, ?_⟩
    · exact TblShape_modifyTc _ _ _ _ _ _ (TblShape_modifyTc _ _ _ _ _ _
        (TblShape_modifyTc _ _ _ _ _ _ (TblShape_modifyTc _ _ _ _ _ _ hShape)))
    · refine TblSpanPos_modifyTc _ _ _ _ (TblSpanPos_modifyTc _ _ _ _
        (TblSpanPos_modifyTc _ _ _ _ (TblSpanPos_modifyTc _ _ _ _ hSpanN
          (fun _ h => h)) (fun _ h => h)) (fun _ h => h)) ?_
      intro tc htc ch hch
      simp only [Option.getD_some] at hch
      rcases List.mem_append.mp hch with h | h
      · exact htc ch h
      · exact hmv1 ch h
    · refine TblSpanPos_modifyTc _ _ _ _ hSpanO ?_
      intro tc _ ch hch
      simp only [Option.getD_some] at hch
      exact hmv2 ch hch
    · refine TblVmOk_modifyTc _ _ _ _ (TblVmOk_modifyTc _ _ _ _
        (TblVmOk_modifyTc _ _ _ _ (TblVmOk_modifyTc _ _ _ _ hVmN
          (fun _ h => h)) (fun _ h => h)) (fun _ h => h)) ?_
      intro tc htc ch hch
      simp only [Option.getD_some] at hch
      rcases List.mem_append.mp hch with h | h
      · exact htc ch h
      · exact hvm1 ch h
    · refine TblVmOk_modifyTc _ _ _ _ hVmO ?_
      intro tc _ ch hch
      simp only [Option.getD_some] at hch
      exact hvm2 ch hch
    · intro a b tc h
      rcases hVal a b tc h with ⟨tc', h'⟩
      exact getTc?_modifyTc_some _ _ _ _ _ _ _ h'

theorem copyRowCells_total (d : Doc) (R C r : Nat) (st : Tbl × Tbl)
    (hShape : TblShape st.2 R C) (hSpanN : TblSpanPos st.2) (hSpanO : TblSpanPos st.1)
    (hVmN : TblVmOk st.2) (hVmO : TblVmOk st.1) (hr : r < R) :
    ∃ st', copyRowCells d C r st = some st' ∧
      TblShape st'.2 R C ∧ TblSpanPos st'.2 ∧ TblSpanPos st'.1 ∧
      TblVmOk st'.2 ∧ TblVmOk st'.1 := by
  have hInit : CopyInv st.1 R C st :=
    ⟨hShape, hSpanN, hSpanO, hVmN, hVmO, fun a b tc h => ⟨tc, h⟩⟩
  have := foldlM_option_total (CopyInv st.1 R C)
    (fun (s : Tbl × Tbl) (ca : Nat × (Nat × Nat)) => copyCellAt d C s r ca.1 ca.2)
    (enumFrom 0 (rowCellsSnap st.1 r C)) st hInit ?_
  · rcases this with ⟨st', hres, hShape', hSpanN', hSpanO', hVmN', hVmO', _⟩
    refine ⟨st', ?_, hShape', hSpanN', hSpanO', hVmN', hVmO'⟩
    unfold copyRowCells
    rw [rowCellsSnapO_of_vmOk st.1 r C hVmO]
    exact hres
  · intro x ca hmem hx
    have hca := enumFrom_mem _ _ _ hmem
    have hcb : ca.1 < C := by
      have hlen : (rowCellsSnap st.1 r C).length ≤ C := by
        unfold rowCellsSnap
        exact List.length_take_le _ _
      omega
    have haddr : ∃ tc, st.1.getTc? ca.2.1 ca.2.2 = some tc := by
      have hmem2 : ca.2 ∈ tblCells st.1 := by
        have h1 : ca.2 ∈ ((tblCells st.1).drop (r * C)).take C := hca.2.2
        exact List.mem_of_mem_drop (List.mem_of_mem_take h1)
      rcases mem_tblCells_getTc st.1 ca.2 hmem2 with ⟨tc, htc⟩
      exact ⟨tc, htc⟩
    exact copyCellAt_total d st.1 R C x r ca.1 ca.2 hx hr hcb haddr

theorem copyAllCells_total (d : Doc) (R C : Nat) (st : Tbl × Tbl)
    (hShape : TblShape st.2 R C) (hSpanN : TblSpanPos st.2) (hSpanO : TblSpanPos st.1)
    (hVmN : TblVmOk st.2) (hVmO : TblVmOk st.1) :
    ∃ st', copyAllCells d R C st = some st' ∧
      TblShape st'.2 R C ∧ TblSpanPos st'.2 ∧ TblSpanPos st'.1 := by
  unfold copyAllCells
  have := foldlM_option_total
    (fun s => TblShape s.2 R C ∧ TblSpanPos s.2 ∧ TblSpanPos s.1 ∧
      TblVmOk s.2 ∧ TblVmOk s.1)
    (fun s r => copyRowCells d C r s) (List.range R) st
    ⟨hShape, hSpanN, hSpanO, hVmN, hVmO⟩
    (fun x r hmem hx => by
      rcases copyRowCells_total d R C r x hx.1 hx.2.1 hx.2.2.1 hx.2.2.2.1 hx.2.2.2.2
        (List.mem_range.mp hmem) with ⟨st', hres, h1, h2, h3, h4, h5⟩
      exact ⟨st', hres, h1, h2, h3, h4, h5⟩)
  rcases this with ⟨st', hres, h1, h2, h3, _⟩
  exact ⟨st', hres, h1, h2, h3⟩

theorem pOTinit_rows (d : Doc) (t : Tbl) :
    (pOTinit d t).rows = List.replicate t.rows.length ⟨List.replicate t.gridCols mkNewTc⟩ := by
  unfold pOTinit mkNewTable
  cases getStyleResolve d (tblStyleIdOf t) .table <;> rfl

theorem processOneTable_total (d : Doc) (t : Tbl) (l0 : List TblPrChild)
    (hPr : t.tblPr = some l0) (h : TblSpanPos t) (hvm : TblVmOk t) :
    ∃ nd t', processOneTable d t = some (nd, t') := by
  have hShape : TblShape (pOTinit d t) t.rows.length t.gridCols := by
    constructor
    · rw [pOTinit_rows, List.length_replicate]
    · intro tr htr
      rw [pOTinit_rows] at htr
      have := List.eq_of_mem_replicate htr
      rw [this]
      simp
  have hSpanN : TblSpanPos (pOTinit d t) := by
    intro tr htr tc htc
    rw [pOTinit_rows] at htr
    have := List.eq_of_mem_replicate htr
    rw [this] at htc
    have htc' := List.eq_of_mem_replicate htc
    rw [htc']
    intro ch hch
    simp [mkNewTc] at hch
  have hVmN : TblVmOk (pOTinit d t) := by
    intro tr htr tc htc
    rw [pOTinit_rows] at htr
    have := List.eq_of_mem_replicate htr
    rw [this] at htc
    have htc' := List.eq_of_mem_replicate htc
    rw [htc']
    intro ch hch
    simp [mkNewTc] at hch
  rcases copyAllCells_total d t.rows.length t.gridCols (t, pOTinit d t)
    hShape hSpanN h hVmN hvm with ⟨st', hres, _⟩
  rw [processOneTable_eq d t l0 hPr, hres]
  exact ⟨_, _, rfl⟩

/-! ### Output count and names on well-formed inputs -/

theorem topLevelTablesSpec_eq (body : List BodyChild) :
    (body.filterMap fun ch =>
      match ch with
      | .tbl t => some t
      | _ => none) = topLevelTablesSpec body := by
  induction body with
  | nil => rfl
  | cons ch rest ih =>
    cases ch with
    | tbl t => simp [topLevelTablesSpec, List.filterMap_cons, ih]
    | para p => simp [topLevelTablesSpec, List.filterMap_cons, ih]
    | sdt blocks => simp [topLevelTablesSpec, List.filterMap_cons, ih]

theorem mem_docTables_of_mem_body (body : List BodyChild) (t : Tbl)
    (h : BodyChild.tbl t ∈ body) :
    t ∈ (body.filterMap fun ch =>
      match ch with
      | .tbl t => some t
      | _ => none) :=
  List.mem_filterMap.mpr ⟨BodyChild.tbl t, h, rfl⟩

/-- The per-table well-formedness assumption of the totality theorems. -/
def TblWf (t : Tbl) : Prop :=
  (∃ l, t.tblPr = some l) ∧ TblSpanPos t ∧ TblVmOk t

/-- The state of an original cell after its tcPr children at even positions
were moved away: the odd-position children remain. -/
def expectedOldTc (tc : Tc) : Tc :=
  { tc with
    tcPr :=
      match tc.tcPr with
      | some l => some (moveAlternate l).2
      | none => none }

/-- The state of a new-table cell after the copy: the copied paragraphs as
content, and a tcPr holding the moved even-position children of the original
cell's tcPr (empty when the original cell had none). -/
def expectedNewTc (d : Doc) (tc : Tc) : Tc :=
  { tcPr :=
      some
        (match tc.tcPr with
        | some l => (moveAlternate l).1
        | none => [])
    content := copiedCellContent d tc }

/-- The original table after the whole cell loop ran. -/
def uniformOld (t : Tbl) : Tbl :=
  { t with rows := t.rows.map fun tr => ⟨tr.tcs.map expectedOldTc⟩ }

/-- The new table after the whole cell loop ran, with tblPr P. -/
def uniformNew (d : Doc) (P : Option (List TblPrChild)) (t : Tbl) : Tbl :=
  { tblPr := P
    gridCols := t.gridCols
    rows := t.rows.map fun tr => ⟨tr.tcs.map (expectedNewTc d)⟩ }

/-- Intermediate state of the original: rows before r fully processed, row r
processed up to column c, the rest untouched. -/
def hybridO (t : Tbl) (r c : Nat) : Tbl :=
  { t with
    rows :=
      (t.rows.take r).map (fun tr => ⟨tr.tcs.map expectedOldTc⟩) ++
        match t.rows.drop r with
        | [] => []
        | tr :: rest => ⟨twoPhase expectedOldTc id c tr.tcs⟩ :: rest }

/-- Intermediate state of the new table, relative to the original t. -/
def hybridN (d : Doc) (P : Option (List TblPrChild)) (t : Tbl) (r c : Nat) : Tbl :=
  { tblPr := P
    gridCols := t.gridCols
    rows :=
      (t.rows.take r).map (fun tr => ⟨tr.tcs.map (expectedNewTc d)⟩) ++
        match t.rows.drop r with
        | [] => []
        | tr :: rest =>
          ⟨twoPhase (expectedNewTc d) (fun _ => mkNewTc) c tr.tcs⟩ ::
            rest.map fun tr' => ⟨tr'.tcs.map fun _ => mkNewTc⟩ }

/-- The cell addresses of one uniform row: (r, 0) .. (r, C-1). -/
def colPairs (r C : Nat) : List (Nat × Nat) :=
  (List.range C).map fun c => (r, c)

/-- The cell addresses of a uniform span-1 grid, starting at row ri, n rows of
C columns. -/
def uniformCells (ri : Nat) : Nat → Nat → List (Nat × Nat)
  | 0, _ => []
  | n + 1, C => colPairs ri C ++ uniformCells (ri + 1) n C

/-- No tcPr child is a gridSpan or vMerge property. -/
def noMergeChildren (l : List TcPrChild) : Prop :=
  ∀ ch ∈ l, isGridSpanChild ch = false ∧ isVMergeChild ch = false

theorem firstGridSpan_eq_none (l : List TcPrChild) (h : noMergeChildren l) :
    firstGridSpan l = none := by
  induction l with
  | nil => rfl
  | cons ch rest ih =>
    cases ch with
    | gridSpan n =>
      have := (h _ (List.mem_cons_self _ _)).1
      simp [isGridSpanChild] at this
    | vMerge r =>
      simp only [firstGridSpan]
      exact ih fun ch' h' => h ch' (List.mem_cons_of_mem _ h')
    | other s =>
      simp only [firstGridSpan]
      exact ih fun ch' h' => h ch' (List.mem_cons_of_mem _ h')

theorem noMerge_vmOk (l : List TcPrChild) (h : noMergeChildren l) :
    ∀ ch ∈ l, vmOkChild ch = true := by
  intro ch hch
  cases ch with
  | gridSpan n => rfl
  | vMerge r =>
    have := (h _ hch).2
    simp [isVMergeChild] at this
  | other s => rfl

theorem gridSpanOf_one (tc : Tc) (h : noMergeChildren (tc.tcPr.getD [])) :
    gridSpanOf tc = 1 := by
  unfold gridSpanOf
  rw [firstGridSpan_eq_none _ h]
  rfl

theorem expandTcs_ones (ri : Nat) (tcs : List Tc) (h : ∀ tc ∈ tcs, gridSpanOf tc = 1) :
    ∀ ti, expandTcs ri ti tcs = (List.range tcs.length).map fun k => (ri, ti + k) := by
  induction tcs with
  | nil => intro ti; rfl
  | cons tc rest ih =>
    intro ti
    have htc := h tc (List.mem_cons_self _ _)
    have hrest := ih (fun tc' h' => h tc' (List.mem_cons_of_mem _ h')) (ti + 1)
    have hmap : List.map (fun k => (ri, ti + 1 + k)) (List.range rest.length) =
        List.map ((fun k => (ri, ti + k)) ∘ Nat.succ) (List.range rest.length) := by
      apply List.map_congr_left
      intro a _
      simp only [Function.comp_apply]
      congr 1
      omega
    simp only [expandTcs, htc, hrest]
    rw [List.length_cons, List.range_succ_eq_map, List.map_cons, List.map_map, ← hmap]
    simp [List.replicate]

theorem colPairs_length (r C : Nat) : (colPairs r C).length = C := by
  simp [colPairs]

theorem cellsAux_uniform (C : Nat) :
    ∀ (rows : List Tr) (ri : Nat),
      (∀ tr ∈ rows, tr.tcs.length = C) →
      (∀ tr ∈ rows, ∀ tc ∈ tr.tcs, gridSpanOf tc = 1) →
      cellsAux ri rows = uniformCells ri rows.length C := by
  intro rows
  induction rows with
  | nil => intro ri _ _; rfl
  | cons tr rest ih =>
    intro ri hshape hones
    simp only [cellsAux, List.length_cons, uniformCells]
    rw [expandTcs_ones ri tr.tcs (hones tr (List.mem_cons_self _ _)) 0,
      ih (ri + 1) (fun tr' h => hshape tr' (List.mem_cons_of_mem _ h))
        (fun tr' h => hones tr' (List.mem_cons_of_mem _ h)),
      hshape tr (List.mem_cons_self _ _)]
    congr 1
    unfold colPairs
    apply List.map_congr_left
    intro k _
    simp

theorem drop_len_append (a : List α) :
    ∀ (b : List α) (i : Nat), (a ++ b).drop (a.length + i) = b.drop i := by
  induction a with
  | nil => intro b i; simp
  | cons x rest ih =>
    intro b i
    simp only [List.cons_append, List.length_cons]
    have h1 : rest.length + 1 + i = rest.length + i + 1 := by omega
    rw [h1, List.drop_succ_cons]
    exact ih b i

theorem uniformCells_drop (C : Nat) :
    ∀ (r n ri : Nat), r ≤ n →
      (uniformCells ri n C).drop (r * C) = uniformCells (ri + r) (n - r) C := by
  intro r
  induction r with
  | zero => intro n ri _; simp
  | succ m ih =>
    intro n ri hle
    cases n with
    | zero => omega
    | succ n' =>
      have hle' : m ≤ n' := by omega
      simp only [uniformCells]
      have h1 : (m + 1) * C = (colPairs ri C).length + m * C := by
        rw [colPairs_length, Nat.succ_mul]
        omega
      rw [h1, drop_len_append, ih n' (ri + 1) hle']
      have h2 : ri + 1 + m = ri + (m + 1) := by omega
      have h3 : n' - m = n' + 1 - (m + 1) := by omega
      rw [h2, h3]

theorem take_len_append (a b : List α) : (a ++ b).take a.length = a := by
  induction a with
  | nil => rfl
  | cons x rest ih => simp [ih]

theorem colPairs_get? (r C c : Nat) (hc : c < C) :
    (colPairs r C).get? c = some (r, c) := by
  unfold colPairs
  rw [List.get?_map, List.get?_range hc]
  rfl

/-- Shape and absence of merges, stated for an arbitrary table against an
explicit column count. -/
def UniformTbl (t : Tbl) (C : Nat) : Prop :=
  (∀ tr ∈ t.rows, tr.tcs.length = C) ∧
    ∀ tr ∈ t.rows, ∀ tc ∈ tr.tcs, noMergeChildren (tc.tcPr.getD [])

theorem UniformTbl_ones (t : Tbl) (C : Nat) (h : UniformTbl t C) :
    ∀ tr ∈ t.rows, ∀ tc ∈ tr.tcs, gridSpanOf tc = 1 :=
  fun tr htr tc htc => gridSpanOf_one tc (h.2 tr htr tc htc)

theorem UniformTbl_vmOk (t : Tbl) (C : Nat) (h : UniformTbl t C) : TblVmOk t :=
  fun tr htr tc htc ch hch => noMerge_vmOk _ (h.2 tr htr tc htc) ch hch

theorem tblCells_uniform (t : Tbl) (C : Nat) (h : UniformTbl t C) :
    tblCells t = uniformCells 0 t.rows.length C := by
  unfold tblCells
  exact cellsAux_uniform C t.rows 0 h.1 (UniformTbl_ones t C h)

theorem rowCellsSnap_uniform (t : Tbl) (C r : Nat) (h : UniformTbl t C)
    (hr : r < t.rows.length) : rowCellsSnap t r C = colPairs r C := by
  unfold rowCellsSnap
  rw [tblCells_uniform t C h, uniformCells_drop C r t.rows.length 0 (Nat.le_of_lt hr)]
  have : t.rows.length - r = (t.rows.length - r - 1) + 1 := by omega
  rw [this]
  simp only [uniformCells, Nat.zero_add]
  exact List.take_left' (colPairs_length r C)

theorem tblCellAt?_uniform (t : Tbl) (C r c : Nat) (h : UniformTbl t C)
    (hr : r < t.rows.length) (hc : c < C) : tblCellAt? t C r c = some (r, c) := by
  rw [tblCellAt?_of_vmOk t C r c (UniformTbl_vmOk t C h)]
  rw [tblCells_uniform t C h]
  have hdrop := uniformCells_drop C r t.rows.length 0 (Nat.le_of_lt hr)
  have hget : (uniformCells 0 t.rows.length C).get? (r * C + c) =
      ((uniformCells 0 t.rows.length C).drop (r * C)).get? c := by
    rw [List.get?_drop]
  rw [hget, hdrop]
  have : t.rows.length - r = (t.rows.length - r - 1) + 1 := by omega
  rw [this]
  simp only [uniformCells, Nat.zero_add]
  rw [List.get?_append (by rw [colPairs_length]; exact hc)]
  exact colPairs_get? r C c hc

theorem drop_eq_cons_of_get? (l : List α) :
    ∀ (n : Nat) (x : α), l.get? n = some x → l.drop n = x :: l.drop (n + 1) := by
  induction l with
  | nil => intro n x h; cases h
  | cons a rest ih =>
    intro n x h
    cases n with
    | zero =>
      simp only [List.get?] at h
      cases h
      rfl
    | succ m =>
      simp only [List.get?] at h
      simpa using ih m x h

theorem get?_append_len (a : List α) (x : α) (b : List α) :
    (a ++ x :: b).get? a.length = some x := by
  induction a with
  | nil => rfl
  | cons y rest ih => simpa using ih

theorem modifyAt_at_append (a : List α) (x : α) (b : List α) (F : α → α) :
    modifyAt (a ++ x :: b) a.length F = a ++ F x :: b := by
  induction a with
  | nil => rfl
  | cons y rest ih => simp [modifyAt, ih]

theorem modifyAt_modifyAt (l : List α) :
    ∀ (i : Nat) (f g : α → α),
      modifyAt (modifyAt l i f) i g = modifyAt l i fun a => g (f a) := by
  induction l with
  | nil => intro i f g; rfl
  | cons a rest ih =>
    intro i f g
    cases i with
    | zero => rfl
    | succ m => simp [modifyAt, ih]

theorem modifyTc_modifyTc (t : Tbl) (ri ti : Nat) (f g : Tc → Tc) :
    (t.modifyTc ri ti f).modifyTc ri ti g = t.modifyTc ri ti fun tc => g (f tc) := by
  unfold Tbl.modifyTc
  simp only [modifyAt_modifyAt]

theorem modifyTc_congr_at (t : Tbl) (ri ti : Nat) (f g : Tc → Tc) (tc : Tc)
    (hget : t.getTc? ri ti = some tc) (hfg : f tc = g tc) :
    t.modifyTc ri ti f = t.modifyTc ri ti g := by
  unfold Tbl.getTc? at hget
  unfold Tbl.modifyTc
  cases hga : t.rows.get? ri with
  | none => rw [hga] at hget; cases hget
  | some tr =>
    rw [hga] at hget
    simp only [Option.some_bind] at hget
    congr 1
    apply modifyAt_congr_at _ _ _ _ tr hga
    show Tr.mk (modifyAt tr.tcs ti f) = Tr.mk (modifyAt tr.tcs ti g)
    congr 1
    exact modifyAt_congr_at _ _ _ _ tc hget hfg

theorem noMerge_expectedOldTc (tc : Tc) (h : noMergeChildren (tc.tcPr.getD [])) :
    noMergeChildren ((expectedOldTc tc).tcPr.getD []) := by
  unfold expectedOldTc
  cases hPr : tc.tcPr with
  | none => intro ch hch; cases hch
  | some l =>
    intro ch hch
    simp only [Option.getD_some] at hch
    apply h
    rw [hPr]
    exact moveAlternate_snd_subset l ch hch

theorem noMerge_expectedNewTc (d : Doc) (tc : Tc) (h : noMergeChildren (tc.tcPr.getD [])) :
    noMergeChildren ((expectedNewTc d tc).tcPr.getD []) := by
  unfold expectedNewTc
  cases hPr : tc.tcPr with
  | none => intro ch hch; cases hch
  | some l =>
    intro ch hch
    simp only [Option.getD_some] at hch
    apply h
    rw [hPr]
    exact moveAlternate_fst_subset l ch hch

theorem noMerge_mkNewTc : noMergeChildren (mkNewTc.tcPr.getD []) := by
  intro ch hch
  cases hch

theorem hybridO_rows_length (t : Tbl) (r c : Nat) :
    (hybridO t r c).rows.length = t.rows.length := by
  unfold hybridO
  simp only [List.length_append, List.length_map, List.length_take]
  cases hdrop : t.rows.drop r with
  | nil =>
    have := congrArg List.length hdrop
    simp only [List.length_drop, List.length_nil] at this
    simp only [List.length_nil]
    omega
  | cons tr rest =>
    have := congrArg List.length hdrop
    simp only [List.length_drop, List.length_cons] at this
    simp only [List.length_cons]
    omega

theorem hybridN_rows_length (d : Doc) (P : Option (List TblPrChild)) (t : Tbl) (r c : Nat) :
    (hybridN d P t r c).rows.length = t.rows.length := by
  unfold hybridN
  simp only [List.length_append, List.length_map, List.length_take]
  cases hdrop : t.rows.drop r with
  | nil =>
    have := congrArg List.length hdrop
    simp only [List.length_drop, List.length_nil] at this
    simp only [List.length_nil]
    omega
  | cons tr rest =>
    have := congrArg List.length hdrop
    simp only [List.length_drop, List.length_cons] at this
    simp only [List.length_cons, List.length_map]
    omega

theorem UniformTbl_hybridO (t : Tbl) (C r c : Nat) (h : UniformTbl t C) :
    UniformTbl (hybridO t r c) C := by
  obtain ⟨hshape, hgs⟩ := h
  constructor
  · intro tr htr
    unfold hybridO at htr
    simp only at htr
    rcases List.mem_append.mp htr with h' | h'
    · rcases List.mem_map.mp h' with ⟨tr0, htr0, heq⟩
      rw [← heq]
      simp only [List.length_map]
      exact hshape tr0 (List.mem_of_mem_take htr0)
    · cases hdrop : t.rows.drop r with
      | nil => rw [hdrop] at h'; cases h'
      | cons tr0 rest =>
        rw [hdrop] at h'
        have hmem0 : tr0 ∈ t.rows := by
          have : tr0 ∈ t.rows.drop r := by rw [hdrop]; exact List.mem_cons_self _ _
          exact List.mem_of_mem_drop this
        rcases List.mem_cons.mp h' with h'' | h''
        · rw [h'']
          simp only [twoPhase_length]
          exact hshape tr0 hmem0
        · refine hshape tr ?_
          apply List.mem_of_mem_drop
          rw [hdrop]
          exact List.mem_cons_of_mem _ h''
  · intro tr htr tc htc
    unfold hybridO at htr
    simp only at htr
    rcases List.mem_append.mp htr with h' | h'
    · rcases List.mem_map.mp h' with ⟨tr0, htr0, heq⟩
      rw [← heq] at htc
      simp only at htc
      rcases List.mem_map.mp htc with ⟨tc0, htc0, heq'⟩
      rw [← heq']
      exact noMerge_expectedOldTc tc0 (hgs tr0 (List.mem_of_mem_take htr0) tc0 htc0)
    · cases hdrop : t.rows.drop r with
      | nil => rw [hdrop] at h'; cases h'
      | cons tr0 rest =>
        rw [hdrop] at h'
        have hmem0 : tr0 ∈ t.rows := by
          have : tr0 ∈ t.rows.drop r := by rw [hdrop]; exact List.mem_cons_self _ _
          exact List.mem_of_mem_drop this
        rcases List.mem_cons.mp h' with h'' | h''
        · rw [h''] at htc
          simp only at htc
          rcases twoPhase_mem _ _ _ _ _ htc with ⟨tc0, htc0, heq'⟩ | ⟨tc0, htc0, heq'⟩
          · rw [heq']
            exact noMerge_expectedOldTc tc0 (hgs tr0 hmem0 tc0 htc0)
          · rw [heq']
            exact hgs tr0 hmem0 tc0 htc0
        · refine hgs tr ?_ tc htc
          apply List.mem_of_mem_drop
          rw [hdrop]
          exact List.mem_cons_of_mem _ h''

theorem UniformTbl_hybridN (d : Doc) (P : Option (List TblPrChild)) (t : Tbl) (C r c : Nat)
    (h : UniformTbl t C) : UniformTbl (hybridN d P t r c) C := by
  obtain ⟨hshape, hgs⟩ := h
  constructor
  · intro tr htr
    unfold hybridN at htr
    simp only at htr
    rcases List.mem_append.mp htr with h' | h'
    · rcases List.mem_map.mp h' with ⟨tr0, htr0, heq⟩
      rw [← heq]
      simp only [List.length_map]
      exact hshape tr0 (List.mem_of_mem_take htr0)
    · cases hdrop : t.rows.drop r with
      | nil => rw [hdrop] at h'; cases h'
      | cons tr0 rest =>
        rw [hdrop] at h'
        have hmem0 : tr0 ∈ t.rows := by
          have : tr0 ∈ t.rows.drop r := by rw [hdrop]; exact List.mem_cons_self _ _
          exact List.mem_of_mem_drop this
        rcases List.mem_cons.mp h' with h'' | h''
        · rw [h'']
          simp only [twoPhase_length]
          exact hshape tr0 hmem0
        · rcases List.mem_map.mp h'' with ⟨tr1, htr1, heq⟩
          rw [← heq]
          simp only [List.length_map]
          refine hshape tr1 ?_
          apply List.mem_of_mem_drop
          rw [hdrop]
          exact List.mem_cons_of_mem _ htr1
  · intro tr htr tc htc
    unfold hybridN at htr
    simp only at htr
    rcases List.mem_append.mp htr with h' | h'
    · rcases List.mem_map.mp h' with ⟨tr0, htr0, heq⟩
      rw [← heq] at htc
      simp only at htc
      rcases List.mem_map.mp htc with ⟨tc0, htc0, heq'⟩
      rw [← heq']
      exact noMerge_expectedNewTc d tc0 (hgs tr0 (List.mem_of_mem_take htr0) tc0 htc0)
    · cases hdrop : t.rows.drop r with
      | nil => rw [hdrop] at h'; cases h'
      | cons tr0 rest =>
        rw [hdrop] at h'
        have hmem0 : tr0 ∈ t.rows := by
          have : tr0 ∈ t.rows.drop r := by rw [hdrop]; exact List.mem_cons_self _ _
          exact List.mem_of_mem_drop this
        rcases List.mem_cons.mp h' with h'' | h''
        · rw [h''] at htc
          simp only at htc
          rcases twoPhase_mem _ _ _ _ _ htc with ⟨tc0, htc0, heq'⟩ | ⟨tc0, htc0, heq'⟩
          · rw [heq']
            exact noMerge_expectedNewTc d tc0 (hgs tr0 hmem0 tc0 htc0)
          · rw [heq']
            exact noMerge_mkNewTc
        · rcases List.mem_map.mp h'' with ⟨tr1, htr1, heq⟩
          rw [← heq] at htc
          simp only at htc
          rcases List.mem_map.mp htc with ⟨tc0, htc0, heq'⟩
          rw [← heq']
          exact noMerge_mkNewTc

theorem take_map_length (f : Tr → Tr) (l : List Tr) (r : Nat) (hr : r ≤ l.length) :
    ((l.take r).map f).length = r := by
  simp [List.length_take, Nat.min_eq_left hr]

theorem get?_append_len' (a : List α) (x : α) (b : List α) (n : Nat) (h : a.length = n) :
    (a ++ x :: b).get? n = some x := by
  subst h
  exact get?_append_len a x b

theorem modifyAt_at_append' (a : List α) (x : α) (b : List α) (F : α → α) (n : Nat)
    (h : a.length = n) : modifyAt (a ++ x :: b) n F = a ++ F x :: b := by
  subst h
  exact modifyAt_at_append a x b F

theorem hybridO_getTc_boundary (t : Tbl) (r c : Nat) (tr : Tr) (tc0 : Tc)
    (hrow : t.rows.get? r = some tr) (hcell : tr.tcs.get? c = some tc0) :
    (hybridO t r c).getTc? r c = some tc0 := by
  have hr : r < t.rows.length := by
    by_contra hcon
    rw [List.get?_len_le (Nat.le_of_not_lt hcon)] at hrow
    cases hrow
  have hdrop : t.rows.drop r = tr :: t.rows.drop (r + 1) :=
    drop_eq_cons_of_get? t.rows r tr hrow
  unfold Tbl.getTc? hybridO
  simp only [hdrop]
  rw [get?_append_len' _ _ _ r (take_map_length _ _ _ (Nat.le_of_lt hr))]
  simp only [Option.some_bind]
  rw [twoPhase_get?_ge _ _ c c tr.tcs (Nat.le_refl c), hcell]
  rfl

theorem hybridN_getTc_boundary (d : Doc) (P : Option (List TblPrChild)) (t : Tbl)
    (r c : Nat) (tr : Tr) (tc0 : Tc)
    (hrow : t.rows.get? r = some tr) (hcell : tr.tcs.get? c = some tc0) :
    (hybridN d P t r c).getTc? r c = some mkNewTc := by
  have hr : r < t.rows.length := by
    by_contra hcon
    rw [List.get?_len_le (Nat.le_of_not_lt hcon)] at hrow
    cases hrow
  have hdrop : t.rows.drop r = tr :: t.rows.drop (r + 1) :=
    drop_eq_cons_of_get? t.rows r tr hrow
  unfold Tbl.getTc? hybridN
  simp only [hdrop]
  rw [get?_append_len' _ _ _ r (take_map_length _ _ _ (Nat.le_of_lt hr))]
  simp only [Option.some_bind]
  rw [twoPhase_get?_ge _ _ c c tr.tcs (Nat.le_refl c), hcell]
  rfl

theorem hybridO_advance (t : Tbl) (r c : Nat) (tr : Tr) (tc0 : Tc)
    (hrow : t.rows.get? r = some tr) (hcell : tr.tcs.get? c = some tc0) :
    (hybridO t r c).modifyTc r c (fun _ => expectedOldTc tc0) = hybridO t r (c + 1) := by
  have hr : r < t.rows.length := by
    by_contra hcon
    rw [List.get?_len_le (Nat.le_of_not_lt hcon)] at hrow
    cases hrow
  have hdrop : t.rows.drop r = tr :: t.rows.drop (r + 1) :=
    drop_eq_cons_of_get? t.rows r tr hrow
  unfold Tbl.modifyTc hybridO
  simp only [hdrop]
  congr 1
  rw [modifyAt_at_append' _ _ _ _ r (take_map_length _ _ _ (Nat.le_of_lt hr))]
  congr 2
  rw [twoPhase_advance expectedOldTc id c tr.tcs tc0 hcell]

theorem hybridN_advance (d : Doc) (P : Option (List TblPrChild)) (t : Tbl)
    (r c : Nat) (tr : Tr) (tc0 : Tc)
    (hrow : t.rows.get? r = some tr) (hcell : tr.tcs.get? c = some tc0) :
    (hybridN d P t r c).modifyTc r c (fun _ => expectedNewTc d tc0) =
      hybridN d P t r (c + 1) := by
  have hr : r < t.rows.length := by
    by_contra hcon
    rw [List.get?_len_le (Nat.le_of_not_lt hcon)] at hrow
    cases hrow
  have hdrop : t.rows.drop r = tr :: t.rows.drop (r + 1) :=
    drop_eq_cons_of_get? t.rows r tr hrow
  unfold Tbl.modifyTc hybridN
  simp only [hdrop]
  congr 1
  rw [modifyAt_at_append' _ _ _ _ r (take_map_length _ _ _ (Nat.le_of_lt hr))]
  congr 2
  rw [twoPhase_advance (expectedNewTc d) (fun _ => mkNewTc) c tr.tcs tc0 hcell]

theorem hybridO_row_advance (t : Tbl) (r C : Nat) (tr : Tr)
    (hrow : t.rows.get? r = some tr) (hlen : tr.tcs.length = C) :
    hybridO t r C = hybridO t (r + 1) 0 := by
  have hdrop : t.rows.drop r = tr :: t.rows.drop (r + 1) :=
    drop_eq_cons_of_get? t.rows r tr hrow
  have hrow2 : t.rows[r]? = some tr := by
    rw [← List.get?_eq_getElem?]
    exact hrow
  unfold hybridO
  congr 1
  rw [List.take_succ, hrow2]
  simp only [hdrop, Option.toList_some, List.map_append, List.map_cons, List.map_nil,
    List.append_assoc, List.singleton_append]
  congr 1
  congr 1
  · congr 1
    rw [twoPhase_full _ _ _ _ (by omega)]
  · cases t.rows.drop (r + 1) with
    | nil => rfl
    | cons tr2 rest2 =>
      show tr2 :: rest2 = (⟨twoPhase expectedOldTc id 0 tr2.tcs⟩ : Tr) :: rest2
      rw [twoPhase_zero]
      simp

theorem hybridN_row_advance (d : Doc) (P : Option (List TblPrChild)) (t : Tbl)
    (r C : Nat) (tr : Tr)
    (hrow : t.rows.get? r = some tr) (hlen : tr.tcs.length = C) :
    hybridN d P t r C = hybridN d P t (r + 1) 0 := by
  have hdrop : t.rows.drop r = tr :: t.rows.drop (r + 1) :=
    drop_eq_cons_of_get? t.rows r tr hrow
  have hrow2 : t.rows[r]? = some tr := by
    rw [← List.get?_eq_getElem?]
    exact hrow
  unfold hybridN
  congr 1
  rw [List.take_succ, hrow2]
  simp only [hdrop, Option.toList_some, List.map_append, List.map_cons, List.map_nil,
    List.append_assoc, List.singleton_append]
  congr 1
  congr 1
  · congr 1
    rw [twoPhase_full _ _ _ _ (by omega)]
  · cases t.rows.drop (r + 1) with
    | nil => rfl
    | cons tr2 rest2 =>
      show (tr2 :: rest2).map (fun tr' => (⟨tr'.tcs.map fun _ => mkNewTc⟩ : Tr)) =
        (⟨twoPhase (expectedNewTc d) (fun _ => mkNewTc) 0 tr2.tcs⟩ : Tr) ::
          rest2.map fun tr' => ⟨tr'.tcs.map fun _ => mkNewTc⟩
      rw [List.map_cons, twoPhase_zero]

theorem hybridO_zero (t : Tbl) : hybridO t 0 0 = t := by
  unfold hybridO
  cases t with
  | mk tblPr gridCols rows =>
    simp only
    congr 1
    cases rows with
    | nil => rfl
    | cons tr rest =>
      simp only [List.take_zero, List.map_nil, List.drop_zero, List.nil_append]
      have h1 : twoPhase expectedOldTc id 0 tr.tcs = tr.tcs := by
        rw [twoPhase_zero]
        simp
      rw [h1]

theorem hybridO_full (t : Tbl) : hybridO t t.rows.length 0 = uniformOld t := by
  unfold hybridO uniformOld
  congr 1
  rw [List.take_of_length_le (Nat.le_refl _), List.drop_of_length_le (Nat.le_refl _)]
  simp

theorem hybridN_full (d : Doc) (P : Option (List TblPrChild)) (t : Tbl) :
    hybridN d P t t.rows.length 0 = uniformNew d P t := by
  unfold hybridN uniformNew
  congr 1
  rw [List.take_of_length_le (Nat.le_refl _), List.drop_of_length_le (Nat.le_refl _)]
  simp

theorem hybridN_zero (d : Doc) (P : Option (List TblPrChild)) (t : Tbl) :
    hybridN d P t 0 0 =
      { tblPr := P, gridCols := t.gridCols,
        rows := t.rows.map fun tr => ⟨tr.tcs.map fun _ => mkNewTc⟩ } := by
  unfold hybridN
  congr 1
  cases t.rows with
  | nil => rfl
  | cons tr rest =>
    simp only [List.take_zero, List.map_nil, List.drop_zero, List.nil_append, List.map_cons]
    rw [twoPhase_zero]

theorem modifyAt_id (l : List α) : ∀ i, modifyAt l i (fun a => a) = l := by
  induction l with
  | nil => intro i; rfl
  | cons a rest ih =>
    intro i
    cases i with
    | zero => rfl
    | succ m => simp [modifyAt, ih]

theorem modifyTc_id (t : Tbl) (ri ti : Nat) : t.modifyTc ri ti (fun tc => tc) = t := by
  unfold Tbl.modifyTc
  have h1 : (fun tr => (⟨modifyAt tr.tcs ti fun tc => tc⟩ : Tr)) = fun tr => tr := by
    funext tr
    rw [modifyAt_id]
  rw [h1, modifyAt_id]

theorem copyCellAt_uniform_step (d : Doc) (P : Option (List TblPrChild)) (t : Tbl)
    (r c : Nat) (tr : Tr) (tc0 : Tc) (hu : UniformTbl t t.gridCols)
    (hrow : t.rows.get? r = some tr) (hcell : tr.tcs.get? c = some tc0)
    (hc : c < t.gridCols) :
    copyCellAt d t.gridCols (hybridO t r c, hybridN d P t r c) r c (r, c) =
      some (hybridO t r (c + 1), hybridN d P t r (c + 1)) := by
  have hr : r < t.rows.length := by
    by_contra hcon
    rw [List.get?_len_le (Nat.le_of_not_lt hcon)] at hrow
    cases hrow
  have hN : tblCellAt? (hybridN d P t r c) t.gridCols r c = some (r, c) :=
    tblCellAt?_uniform _ _ r c (UniformTbl_hybridN d P t t.gridCols r c hu)
      (by rw [hybridN_rows_length]; exact hr) hc
  have hO : (hybridO t r c).getTc? r c = some tc0 :=
    hybridO_getTc_boundary t r c tr tc0 hrow hcell
  have hNg : (hybridN d P t r c).getTc? r c = some mkNewTc :=
    hybridN_getTc_boundary d P t r c tr tc0 hrow hcell
  rw [copyCellAt_eq_some d t.gridCols (hybridO t r c, hybridN d P t r c) r c (r, c) (r, c)
    tc0 hN hO]
  congr 1
  unfold copyCellAtResult
  cases hPr : tc0.tcPr with
  | none =>
    have hOld : hybridO t r c = hybridO t r (c + 1) := by
      conv_rhs => rw [← hybridO_advance t r c tr tc0 hrow hcell]
      rw [modifyTc_congr_at _ r c _ (fun tc => tc) tc0 hO
        (by simp only [expectedOldTc, hPr]; rw [← hPr]), modifyTc_id]
    have hNew :
        (((hybridN d P t r c).modifyTc r c fun tc => { tc with content := [] }).modifyTc r c
            (fun tc => { tc with content := copiedCellContent d tc0 })).modifyTc r c
          (fun tc => { tc with tcPr := some (tc.tcPr.getD []) }) =
        hybridN d P t r (c + 1) := by
      rw [modifyTc_modifyTc, modifyTc_modifyTc]
      rw [modifyTc_congr_at _ r c _ (fun _ => expectedNewTc d tc0) mkNewTc hNg
        (by simp [mkNewTc, expectedNewTc, hPr])]
      exact hybridN_advance d P t r c tr tc0 hrow hcell
    simp only
    rw [hNew]
    exact congrArg (fun x => (x, hybridN d P t r (c + 1))) hOld
  | some l =>
    have hOld :
        (hybridO t r c).modifyTc r c (fun tc => { tc with tcPr := some (moveAlternate l).2 }) =
          hybridO t r (c + 1) := by
      rw [modifyTc_congr_at _ r c _ (fun _ => expectedOldTc tc0) tc0 hO
        (by simp [expectedOldTc, hPr])]
      exact hybridO_advance t r c tr tc0 hrow hcell
    have hNew :
        ((((hybridN d P t r c).modifyTc r c fun tc => { tc with content := [] }).modifyTc r c
            (fun tc => { tc with content := copiedCellContent d tc0 })).modifyTc r c
          (fun tc => { tc with tcPr := some (tc.tcPr.getD []) })).modifyTc r c
          (fun tc => { tc with tcPr := some (tc.tcPr.getD [] ++ (moveAlternate l).1) }) =
        hybridN d P t r (c + 1) := by
      rw [modifyTc_modifyTc, modifyTc_modifyTc, modifyTc_modifyTc]
      rw [modifyTc_congr_at _ r c _ (fun _ => expectedNewTc d tc0) mkNewTc hNg
        (by simp [mkNewTc, expectedNewTc, hPr])]
      exact hybridN_advance d P t r c tr tc0 hrow hcell
    simp only
    rw [hOld, hNew]

theorem copyRow_cols (d : Doc) (P : Option (List TblPrChild)) (t : Tbl)
    (hu : UniformTbl t t.gridCols) (r : Nat) (tr : Tr)
    (hrow : t.rows.get? r = some tr) :
    ∀ (k c : Nat), c + k = t.gridCols →
      ((List.range' c k).map fun x => (x, (r, x))).foldlM
        (fun (s : Tbl × Tbl) (ca : Nat × (Nat × Nat)) =>
          copyCellAt d t.gridCols s r ca.1 ca.2)
        (hybridO t r c, hybridN d P t r c) =
      some (hybridO t r t.gridCols, hybridN d P t r t.gridCols) := by
  intro k
  induction k with
  | zero =>
    intro c hcC
    have hceq : c = t.gridCols := by omega
    subst hceq
    rfl
  | succ m ih =>
    intro c hcC
    have hc : c < t.gridCols := by omega
    have hclen : c < tr.tcs.length := by
      rw [hu.1 tr (List.get?_mem hrow)]
      exact hc
    obtain ⟨tc0, hcell⟩ : ∃ tc0, tr.tcs.get? c = some tc0 :=
      ⟨_, List.get?_eq_get hclen⟩
    have hstep := copyCellAt_uniform_step d P t r c tr tc0 hu hrow hcell hc
    rw [List.range'_succ]
    simp only [List.map_cons, List.foldlM_cons, hstep, Option.bind_eq_bind, Option.some_bind]
    exact ih (c + 1) (by omega)

theorem copyRowCells_uniform (d : Doc) (P : Option (List TblPrChild)) (t : Tbl)
    (hu : UniformTbl t t.gridCols) (r : Nat) (hr : r < t.rows.length) :
    copyRowCells d t.gridCols r (hybridO t r 0, hybridN d P t r 0) =
      some (hybridO t (r + 1) 0, hybridN d P t (r + 1) 0) := by
  obtain ⟨tr, hrow⟩ : ∃ tr, t.rows.get? r = some tr := ⟨_, List.get?_eq_get hr⟩
  have hsnap : rowCellsSnap (hybridO t r 0) r t.gridCols = colPairs r t.gridCols :=
    rowCellsSnap_uniform _ _ _ (UniformTbl_hybridO t t.gridCols r 0 hu)
      (by rw [hybridO_rows_length]; exact hr)
  have henum : enumFrom 0 (colPairs r t.gridCols) =
      (List.range' 0 t.gridCols).map fun x => (x, (r, x)) := by
    unfold colPairs
    rw [List.range_eq_range', enumFrom_map, enumFrom_range', List.map_map]
    rfl
  have hfold := copyRow_cols d P t hu r tr hrow t.gridCols 0 (by omega)
  have hres : ((List.range' 0 t.gridCols).map fun x => (x, (r, x))).foldlM
      (fun (s : Tbl × Tbl) (ca : Nat × (Nat × Nat)) =>
        copyCellAt d t.gridCols s r ca.1 ca.2)
      (hybridO t r 0, hybridN d P t r 0) =
      some (hybridO t (r + 1) 0, hybridN d P t (r + 1) 0) := by
    rw [hfold]
    have hlen : tr.tcs.length = t.gridCols := hu.1 tr (List.get?_mem hrow)
    rw [hybridO_row_advance t r t.gridCols tr hrow hlen,
      hybridN_row_advance d P t r t.gridCols tr hrow hlen]
  rw [copyRowCells_eq_of_snap d t.gridCols r (hybridO t r 0, hybridN d P t r 0)
    (colPairs r t.gridCols) (by
      show rowCellsSnapO (hybridO t r 0) r t.gridCols = some (colPairs r t.gridCols)
      rw [rowCellsSnapO_of_vmOk _ _ _
        (UniformTbl_vmOk _ t.gridCols (UniformTbl_hybridO t t.gridCols r 0 hu)), hsnap])]
  rw [henum]
  exact hres

theorem copyRows_aux (d : Doc) (P : Option (List TblPrChild)) (t : Tbl)
    (hu : UniformTbl t t.gridCols) :
    ∀ (m r : Nat), r + m = t.rows.length →
      (List.range' r m).foldlM (fun s r' => copyRowCells d t.gridCols r' s)
        (hybridO t r 0, hybridN d P t r 0) =
      some (hybridO t t.rows.length 0, hybridN d P t t.rows.length 0) := by
  intro m
  induction m with
  | zero =>
    intro r h
    have : r = t.rows.length := by omega
    subst this
    rfl
  | succ m' ih =>
    intro r h
    rw [List.range'_succ]
    simp only [List.foldlM_cons, copyRowCells_uniform d P t hu r (by omega),
      Option.bind_eq_bind, Option.some_bind]
    exact ih (r + 1) (by omega)

theorem copyAllCells_uniform (d : Doc) (P : Option (List TblPrChild)) (t : Tbl)
    (hu : UniformTbl t t.gridCols) :
    copyAllCells d t.rows.length t.gridCols (t, hybridN d P t 0 0) =
      some (uniformOld t, uniformNew d P t) := by
  unfold copyAllCells
  rw [List.range_eq_range']
  have h0 := copyRows_aux d P t hu t.rows.length 0 (by omega)
  rw [hybridO_zero] at h0
  rw [h0, hybridO_full, hybridN_full]

theorem rows_map_const (l : List Tr) (C : Nat) (h : ∀ tr ∈ l, tr.tcs.length = C) :
    (l.map fun tr => (⟨tr.tcs.map fun _ => mkNewTc⟩ : Tr)) =
      List.replicate l.length ⟨List.replicate C mkNewTc⟩ := by
  induction l with
  | nil => rfl
  | cons tr rest ih =>
    simp only [List.map_cons, List.length_cons, List.replicate, List.cons.injEq]
    constructor
    · congr 1
      have := h tr (List.mem_cons_self _ _)
      rw [← this]
      clear h ih this
      induction tr.tcs with
      | nil => rfl
      | cons tc rest2 ih2 => simp [List.replicate, ih2]
    · exact ih fun tr' h' => h tr' (List.mem_cons_of_mem _ h')

theorem pOTinit_gridCols (d : Doc) (t : Tbl) : (pOTinit d t).gridCols = t.gridCols := by
  unfold pOTinit mkNewTable
  cases getStyleResolve d (tblStyleIdOf t) .table <;> rfl

theorem pOTinit_eq_hybridN (d : Doc) (t : Tbl) (hu : UniformTbl t t.gridCols) :
    pOTinit d t = hybridN d (pOTinit d t).tblPr t 0 0 := by
  rw [hybridN_zero,
    rows_map_const t.rows t.gridCols hu.1]
  have h1 : pOTinit d t =
      ⟨(pOTinit d t).tblPr, (pOTinit d t).gridCols, (pOTinit d t).rows⟩ := rfl
  rw [h1, pOTinit_gridCols, pOTinit_rows]

theorem processOneTable_uniform (d : Doc) (t : Tbl) (l0 : List TblPrChild)
    (hPr : t.tblPr = some l0) (hu : UniformTbl t t.gridCols) :
    ∃ ft t', processOneTable d t = some ({ defaultTemplate with body := [.tbl ft] }, t') ∧
      ft.rows = (t.rows.map fun tr => ⟨tr.tcs.map (expectedNewTc d)⟩) ∧
      ft.gridCols = t.gridCols := by
  rw [processOneTable_eq d t l0 hPr]
  rw [show copyAllCells d t.rows.length t.gridCols (t, pOTinit d t) =
    copyAllCells d t.rows.length t.gridCols
      (t, hybridN d (pOTinit d t).tblPr t 0 0) from by rw [← pOTinit_eq_hybridN d t hu]]
  rw [copyAllCells_uniform d (pOTinit d t).tblPr t hu]
  simp only [Option.map_some']
  refine ⟨(pOTfin (uniformOld t, uniformNew d (pOTinit d t).tblPr t)).2,
    (pOTfin (uniformOld t, uniformNew d (pOTinit d t).tblPr t)).1, rfl, ?_, ?_⟩
  · unfold pOTfin
    cases (uniformOld t).tblPr <;> rfl
  · unfold pOTfin
    cases (uniformOld t).tblPr <;> rfl

theorem cellTexts_expectedNewTc (d : Doc) (tc : Tc) :
    ((cellParagraphs (expectedNewTc d tc)).map fun p => p.runs.map (·.text)) =
      (cellParagraphs tc).map fun p => p.runs.map (·.text) := by
  unfold expectedNewTc copiedCellContent cellParagraphs
  simp only [List.filterMap_map]
  have h1 : (List.filterMap
      ((fun blk =>
        match blk with
        | CellBlock.para p => some p
        | CellBlock.table _ => none) ∘ fun p => CellBlock.para (copyParagraph d p))
      (tc.content.filterMap fun blk =>
        match blk with
        | CellBlock.para p => some p
        | CellBlock.table _ => none)) =
      ((tc.content.filterMap fun blk =>
        match blk with
        | CellBlock.para p => some p
        | CellBlock.table _ => none).map (copyParagraph d)) := by
    rw [← List.filterMap_eq_map]
    rfl
  rw [h1, List.map_map]
  apply List.map_congr_left
  intro p _
  simp only [Function.comp_apply]
  unfold copyParagraph
  simp only
  rw [List.map_map]
  apply List.map_congr_left
  intro rn _
  rfl

theorem cellTexts_of_mapped (d : Doc) (t ft : Tbl)
    (hrows : ft.rows = t.rows.map fun tr => ⟨tr.tcs.map (expectedNewTc d)⟩) :
    cellTexts ft = cellTexts t := by
  unfold cellTexts
  rw [hrows, List.map_map]
  apply List.map_congr_left
  intro tr _
  simp only [Function.comp_apply]
  rw [List.map_map]
  apply List.map_congr_left
  intro tc _
  simp only [Function.comp_apply]
  exact cellTexts_expectedNewTc d tc

theorem mergePattern_of_mapped (d : Doc) (t ft : Tbl) (hu : UniformTbl t t.gridCols)
    (hrows : ft.rows = t.rows.map fun tr => ⟨tr.tcs.map (expectedNewTc d)⟩) :
    mergePattern ft = mergePattern t := by
  unfold mergePattern
  rw [hrows, List.map_map]
  apply List.map_congr_left
  intro tr htr
  simp only [Function.comp_apply]
  rw [List.map_map]
  apply List.map_congr_left
  intro tc htc
  simp only [Function.comp_apply]
  rw [gridSpanOf_one _ (noMerge_expectedNewTc d tc (hu.2 tr htr tc htc)),
    gridSpanOf_one _ (hu.2 tr htr tc htc)]

theorem uniformNoMergeB_spec (t : Tbl) (h : uniformNoMergeB t = true) :
    UniformTbl t t.gridCols := by
  unfold uniformNoMergeB at h
  rw [List.all_eq_true] at h
  constructor
  · intro tr htr
    have h1 := h tr htr
    rw [Bool.and_eq_true] at h1
    exact Nat.eq_of_beq_eq_true (by simpa using h1.1)
  · intro tr htr tc htc ch hch
    have h1 := h tr htr
    rw [Bool.and_eq_true] at h1
    have h2 := h1.2
    rw [List.all_eq_true] at h2
    have h3 := h2 tc htc
    rw [List.all_eq_true] at h3
    have h4 := h3 ch hch
    rw [Bool.and_eq_true] at h4
    simp only [Bool.not_eq_true'] at h4
    exact h4

theorem UniformTbl_spanPos (t : Tbl) (h : UniformTbl t t.gridCols) : TblSpanPos t := by
  intro tr htr tc htc ch hch
  have := (h.2 tr htr tc htc ch hch).1
  cases ch with
  | gridSpan n => simp [isGridSpanChild] at this
  | vMerge r => rfl
  | other s => rfl

theorem extractBody_pairing (d : Doc) (clock : Nat) :
    ∀ (body : List BodyChild) (i : Nat),
      (∀ t, BodyChild.tbl t ∈ body → TblWf t) →
      ∃ docs body', extractBody d clock body i = some (docs, body') ∧
        ∀ j t, (topLevelTablesSpec body).get? j = some t →
          ∃ o nd t', docs.get? j = some o ∧ processOneTable d t = some (nd, t') ∧
            o.content = saveDoc clock nd := by
  intro body
  induction body with
  | nil =>
    intro i _
    exact ⟨[], [], rfl, fun j t h => by cases h⟩
  | cons ch rest ih =>
    intro i hspan
    cases ch with
    | tbl t =>
      obtain ⟨⟨l0, hPr⟩, hsp, hvm⟩ := hspan t (List.mem_cons_self _ _)
      rcases processOneTable_total d t l0 hPr hsp hvm with ⟨nd, t', hp⟩
      rcases ih (i + 1) (fun t0 h0 => hspan t0 (List.mem_cons_of_mem _ h0)) with
        ⟨docs, body', hres, hpair⟩
      refine ⟨{ name := "table_" ++ toString i ++ ".docx", content := saveDoc clock nd } :: docs,
        .tbl t' :: body', by simp only [extractBody, hp, hres], ?_⟩
      intro j t0 hget
      cases j with
      | zero =>
        simp only [topLevelTablesSpec, List.get?] at hget
        cases hget
        exact ⟨_, nd, t', rfl, hp, rfl⟩
      | succ m =>
        simp only [topLevelTablesSpec, List.get?] at hget
        rcases hpair m t0 hget with ⟨o, nd0, t0', hgo, hp0, hc0⟩
        exact ⟨o, nd0, t0', by simpa using hgo, hp0, hc0⟩
    | para p =>
      rcases ih i (fun t0 h0 => hspan t0 (List.mem_cons_of_mem _ h0)) with
        ⟨docs, body', hres, hpair⟩
      exact ⟨docs, .para p :: body', by simp only [extractBody, hres], hpair⟩
    | sdt blocks =>
      rcases ih i (fun t0 h0 => hspan t0 (List.mem_cons_of_mem _ h0)) with
        ⟨docs, body', hres, hpair⟩
      exact ⟨docs, .sdt blocks :: body', by simp only [extractBody, hres], hpair⟩

/-! ### Claim C2 -/

/-- C2 (amended): for inputs all of whose top-level tables carry their
schema-required tblPr, are uniform (each row has exactly gridCols cells) and
are merge-free (no cell carries a gridSpan or vMerge property), every
extracted output reopens to a single table with the same row count, the same
grid column count, the same per-cell text content, and the same (trivial)
merge pattern as the corresponding input table; for tables WITH merge markers
the claim fails (see the counterexample). -/
theorem extract_fidelity_uniform (clock : Nat) (d : Doc)
    (h : (docTables d).all (fun t => t.tblPr.isSome && uniformNoMergeB t) = true) :
    ∃ res err d', extractTablesFromDocxFull clock d = some ((res, err), d') ∧
      ∀ j t o, (docTables d).get? j = some t → res.get? j = some o →
        ∃ ft, docTables (parsePackage o.content) = [ft] ∧
          ft.rows.length = t.rows.length ∧ ft.gridCols = t.gridCols ∧
          cellTexts ft = cellTexts t ∧ mergePattern ft = mergePattern t := by
  rw [List.all_eq_true] at h
  have hPrOf : ∀ t, t ∈ docTables d → ∃ l, t.tblPr = some l := by
    intro t hmem
    have h1 := h t hmem
    rw [Bool.and_eq_true] at h1
    cases hPr : t.tblPr with
    | none => rw [hPr] at h1; cases h1.1
    | some l => exact ⟨l, rfl⟩
  have huOf : ∀ t, t ∈ docTables d → UniformTbl t t.gridCols := by
    intro t hmem
    have h1 := h t hmem
    rw [Bool.and_eq_true] at h1
    exact uniformNoMergeB_spec t h1.2
  have hspan : ∀ t, BodyChild.tbl t ∈ d.body → TblWf t := fun t hmem =>
    ⟨hPrOf t (mem_docTables_of_mem_body d.body t hmem),
     UniformTbl_spanPos t (huOf t (mem_docTables_of_mem_body d.body t hmem)),
     UniformTbl_vmOk t t.gridCols (huOf t (mem_docTables_of_mem_body d.body t hmem))⟩
  by_cases he : (docTables d).isEmpty
  · refine ⟨[], some noTablesMsg, d, ?_, ?_⟩
    · unfold extractTablesFromDocxFull
      rw [if_pos he]
    · intro j t o _ hgo
      rw [List.get?_len_le (by simp)] at hgo
      cases hgo
  · rcases extractBody_pairing d clock d.body 1 hspan with ⟨docs, body', hres, hpair⟩
    refine ⟨docs, none, { d with body := body' }, ?_, ?_⟩
    · unfold extractTablesFromDocxFull
      rw [if_neg he, hres]
    · intro j t o hgt hgo
      have hgt' : (topLevelTablesSpec d.body).get? j = some t := by
        unfold docTables at hgt
        rw [topLevelTablesSpec_eq] at hgt
        exact hgt
      rcases hpair j t hgt' with ⟨o', nd, t', hgo', hp, hc⟩
      rw [hgo'] at hgo
      cases hgo
      have hmem : t ∈ docTables d := List.get?_mem hgt
      have hu : UniformTbl t t.gridCols := huOf t hmem
      obtain ⟨l0, hPr⟩ := hPrOf t hmem
      rcases processOneTable_uniform d t l0 hPr hu with ⟨ft, t'', hp2, hrows, hcols⟩
      rw [hp] at hp2
      have hnd : nd = { defaultTemplate with body := [.tbl ft] } := by
        cases hp2
        rfl
      refine ⟨ft, ?_, ?_, hcols, cellTexts_of_mapped d t ft hrows,
        mergePattern_of_mapped d t ft hu hrows⟩
      · rw [hc, hnd]
        rfl
      · rw [hrows, List.length_map]

/-- C2 witness: the fidelity theorem applied to a uniform merge-free 2x2
document. -/
theorem extract_fidelity_uniform_witness :
    (docTables exDocUniform).all (fun t => t.tblPr.isSome && uniformNoMergeB t) = true ∧
      (∃ res err d', extractTablesFromDocxFull 0 exDocUniform = some ((res, err), d') ∧
        ∀ j t o, (docTables exDocUniform).get? j = some t → res.get? j = some o →
          ∃ ft, docTables (parsePackage o.content) = [ft] ∧
            ft.rows.length = t.rows.length ∧ ft.gridCols = t.gridCols ∧
            cellTexts ft = cellTexts t ∧ mergePattern ft = mergePattern t) :=
  ⟨rfl, extract_fidelity_uniform 0 exDocUniform rfl⟩

/-! ### Claim C8: enumeration is direct-children-only, and rebuilt cells hold
only paragraphs -/

/-- The table's cells contain only paragraph blocks (no nested tables). -/
def ParasOnly (t : Tbl) : Prop :=
  ∀ tr ∈ t.rows, ∀ tc ∈ tr.tcs, ∀ blk ∈ tc.content, ∃ p, blk = CellBlock.para p

theorem nestedTablesOf_eq_nil (t : Tbl) (h : ParasOnly t) : nestedTablesOf t = [] := by
  rw [List.eq_nil_iff_forall_not_mem]
  intro s hs
  unfold nestedTablesOf at hs
  rcases List.mem_flatMap.mp hs with ⟨tr, htr, hs2⟩
  rcases List.mem_flatMap.mp hs2 with ⟨tc, htc, hs3⟩
  rcases List.mem_filterMap.mp hs3 with ⟨blk, hblk, hmatch⟩
  rcases h tr htr tc htc blk hblk with ⟨p, hp⟩
  rw [hp] at hmatch
  cases hmatch

theorem ParasOnly_modifyTc (t : Tbl) (ri ti : Nat) (f : Tc → Tc) (h : ParasOnly t)
    (hf : ∀ tc, (∀ blk ∈ tc.content, ∃ p, blk = CellBlock.para p) →
      ∀ blk ∈ (f tc).content, ∃ p, blk = CellBlock.para p) :
    ParasOnly (t.modifyTc ri ti f) := by
  intro tr htr tc htc
  unfold Tbl.modifyTc at htr
  simp only at htr
  rcases mem_modifyAt _ _ _ _ htr with h' | ⟨tr0, htr0, heq⟩
  · exact h tr h' tc htc
  · rw [heq] at htc
    simp only at htc
    rcases mem_modifyAt _ _ _ _ htc with h'' | ⟨tc0, htc0, heq'⟩
    · exact h tr0 htr0 tc h''
    · rw [heq']
      exact hf tc0 (h tr0 htr0 tc0 htc0)

theorem copiedCellContent_paras (d : Doc) (tc : Tc) :
    ∀ blk ∈ copiedCellContent d tc, ∃ p, blk = CellBlock.para p := by
  intro blk hblk
  unfold copiedCellContent at hblk
  rcases List.mem_map.mp hblk with ⟨p, _, heq⟩
  exact ⟨copyParagraph d p, heq.symm⟩

theorem copyCellAt_parasOnly (d : Doc) (C : Nat) (st st' : Tbl × Tbl) (r c : Nat)
    (addr : Nat × Nat) (h : copyCellAt d C st r c addr = some st')
    (hP : ParasOnly st.2) : ParasOnly st'.2 := by
  unfold copyCellAt at h
  cases hA : tblCellAt? st.2 C r c with
  | none => rw [hA] at h; cases h
  | some nAddr =>
    rw [hA] at h
    simp only at h
    cases hg : st.1.getTc? addr.1 addr.2 with
    | none => rw [hg] at h; cases h
    | some origTc =>
      rw [hg] at h
      simp only at h
      have h1 : ParasOnly (st.2.modifyTc nAddr.1 nAddr.2 fun tc => { tc with content := [] }) :=
        ParasOnly_modifyTc _ _ _ _ hP (fun tc _ blk hblk => by cases hblk)
      have h2 := ParasOnly_modifyTc _ nAddr.1 nAddr.2
        (fun tc => { tc with content := copiedCellContent d origTc }) h1
        (fun tc _ blk hblk => copiedCellContent_paras d origTc blk hblk)
      have h3 := ParasOnly_modifyTc _ nAddr.1 nAddr.2
        (fun tc => { tc with tcPr := some (tc.tcPr.getD []) }) h2
        (fun tc htc blk hblk => htc blk hblk)
      cases hPr : origTc.tcPr with
      | none =>
        rw [hPr] at h
        cases h
        exact h3
      | some l =>
        rw [hPr] at h
        simp only at h
        cases h
        exact ParasOnly_modifyTc _ nAddr.1 nAddr.2 _ h3 (fun tc htc blk hblk => htc blk hblk)

theorem copyAllCells_parasOnly (d : Doc) (R C : Nat) (st st' : Tbl × Tbl)
    (h : copyAllCells d R C st = some st') (hP : ParasOnly st.2) : ParasOnly st'.2 := by
  have := foldlM_option_preserve (fun s => ParasOnly s.2)
    (fun s r => copyRowCells d C r s) (List.range R) st st' h ?_ hP
  · exact this
  · intro x r y _ hstep hx
    have hstep2 : copyRowCells d C r x = some y := hstep
    unfold copyRowCells at hstep2
    cases hsnap : rowCellsSnapO x.1 r C with
    | none => rw [hsnap] at hstep2; cases hstep2
    | some snap =>
      rw [hsnap] at hstep2
      exact foldlM_option_preserve (fun s => ParasOnly s.2)
        (fun (s : Tbl × Tbl) (ca : Nat × (Nat × Nat)) => copyCellAt d C s r ca.1 ca.2)
        _ x y hstep2
        (fun x' ca y' _ hstep' hx' => copyCellAt_parasOnly d C x' y' r ca.1 ca.2 hstep' hx') hx

theorem pOTinit_parasOnly (d : Doc) (t : Tbl) : ParasOnly (pOTinit d t) := by
  intro tr htr tc htc blk hblk
  rw [pOTinit_rows] at htr
  have h1 := List.eq_of_mem_replicate htr
  rw [h1] at htc
  have h2 := List.eq_of_mem_replicate htc
  rw [h2] at hblk
  simp only [mkNewTc] at hblk
  rcases List.mem_singleton.mp hblk with h3
  exact ⟨emptyParagraph, h3⟩

theorem processOneTable_parasOnly (d : Doc) (t : Tbl) (nd : Doc) (t' : Tbl)
    (h : processOneTable d t = some (nd, t')) :
    ∀ ft ∈ docTables nd, ParasOnly ft := by
  rcases processOneTable_tblPr d t nd t' h with ⟨l0, hPr⟩
  rw [processOneTable_eq d t l0 hPr] at h
  cases hc : copyAllCells d t.rows.length t.gridCols (t, pOTinit d t) with
  | none => rw [hc] at h; cases h
  | some st =>
    rw [hc] at h
    simp only [Option.map_some'] at h
    have hP : ParasOnly st.2 := copyAllCells_parasOnly d _ _ _ _ hc (pOTinit_parasOnly d t)
    have hfin : ParasOnly (pOTfin st).2 := by
      unfold pOTfin
      cases st.1.tblPr with
      | none => exact hP
      | some l => exact fun tr htr => hP tr htr
    intro ft hft
    have hnd : nd = { defaultTemplate with body := [.tbl (pOTfin st).2] } := by
      cases h
      rfl
    rw [hnd] at hft
    have : docTables { defaultTemplate with body := [.tbl (pOTfin st).2] } = [(pOTfin st).2] :=
      rfl
    rw [this] at hft
    rw [List.mem_singleton.mp hft]
    exact hfin

/-- C8 (amended): topology classification enumerates exactly the tables that
are direct children of the body, in encounter order (the code's doc.tables
agrees with the spec's classifier), and tables nested inside cells are never
separately enumerated; however, nested tables do NOT travel with the matched
table: every cell of every reopened output contains paragraphs only, so its
nested-table list is empty. -/
theorem toplevel_enumeration_and_nested_dropped (clock : Nat) (d : Doc)
    (out : List ExtractedDoc × Option String) (d' : Doc)
    (h : extractTablesFromDocxFull clock d = some (out, d')) :
    docTables d = topLevelTablesSpec d.body ∧
      ∀ o ∈ out.1, ∀ ft ∈ docTables (parsePackage o.content), nestedTablesOf ft = [] := by
  constructor
  · unfold docTables
    exact topLevelTablesSpec_eq d.body
  · intro o ho ft hft
    rcases extractFull_outputs clock d out d' h o ho with ⟨t, nd, t', _, hp, hc⟩
    rw [hc] at hft
    exact nestedTablesOf_eq_nil ft (processOneTable_parasOnly d t nd t' hp ft hft)

/-- C8 witness: the theorem applied to the degenerate one-table document and
its concrete output. -/
theorem toplevel_enumeration_and_nested_dropped_witness :
    docTables exDocTiny = topLevelTablesSpec exDocTiny.body ∧
      ∀ o ∈ ([exTinyOut] : List ExtractedDoc),
        ∀ ft ∈ docTables (parsePackage o.content), nestedTablesOf ft = [] :=
  toplevel_enumeration_and_nested_dropped 0 exDocTiny ([exTinyOut], none) exDocTiny rfl

/-! ### Claim C6: every style id referenced in an output comes from the
original document -/

/-- Every paragraph style id written in the table's cells lies in the pool. -/
def ParasPoolOK (pool : List String) (t : Tbl) : Prop :=
  ∀ tr ∈ t.rows, ∀ tc ∈ tr.tcs, ∀ p ∈ cellParagraphs tc,
    ∀ id, p.styleId = some id → id ∈ pool

theorem mem_tcStyleRefs (tc : Tc) (p : Paragraph) (id : String)
    (hp : p ∈ cellParagraphs tc) (hid : p.styleId = some id) : id ∈ tcStyleRefs tc := by
  unfold cellParagraphs at hp
  rcases List.mem_filterMap.mp hp with ⟨blk, hblk, hmatch⟩
  unfold tcStyleRefs
  apply List.mem_flatMap.mpr
  refine ⟨blk, hblk, ?_⟩
  cases blk with
  | para p0 =>
    simp only [Option.some.injEq] at hmatch
    subst hmatch
    simp [paraStyleRefs, hid]
  | table s => cases hmatch

theorem mem_tblStyleRefs_of_tc (t : Tbl) (tr : Tr) (tc : Tc) (id : String)
    (htr : tr ∈ t.rows) (htc : tc ∈ tr.tcs) (hid : id ∈ tcStyleRefs tc) :
    id ∈ tblStyleRefs t := by
  unfold tblStyleRefs
  apply List.mem_append.mpr
  right
  exact List.mem_flatMap.mpr ⟨tr, htr, List.mem_flatMap.mpr ⟨tc, htc, hid⟩⟩

theorem mem_tblStyleRefs_of_tblPr (t : Tbl) (id : String)
    (h : TblPrChild.tblStyle id ∈ t.tblPr.getD []) : id ∈ tblStyleRefs t := by
  unfold tblStyleRefs
  apply List.mem_append.mpr
  left
  exact List.mem_filterMap.mpr ⟨TblPrChild.tblStyle id, h, rfl⟩

theorem mem_docStyleRefs_of_tbl (d : Doc) (t : Tbl) (id : String)
    (ht : t ∈ docTables d) (hid : id ∈ tblStyleRefs t) : id ∈ docStyleRefs d := by
  unfold docTables at ht
  rcases List.mem_filterMap.mp ht with ⟨ch, hch, hmatch⟩
  unfold docStyleRefs
  apply List.mem_flatMap.mpr
  refine ⟨ch, hch, ?_⟩
  cases ch with
  | tbl t0 =>
    simp only [Option.some.injEq] at hmatch
    subst hmatch
    exact hid
  | para p => cases hmatch
  | sdt blocks => cases hmatch

theorem defaultStyleOf_mem_pool (d : Doc) (ty : StyleType) (s : StyleDef)
    (h : defaultStyleOf d ty = some s) : s.id ∈ stylePool d := by
  unfold stylePool definedStyleIds
  apply List.mem_append.mpr
  right
  exact List.mem_map.mpr ⟨s, List.mem_of_find?_eq_some h, rfl⟩

theorem getStyleResolve_pool (d : Doc) (sid : Option String) (ty : StyleType) (id' : String)
    (hraw : ∀ id, sid = some id → id ∈ stylePool d)
    (h : (getStyleResolve d sid ty).map (·.id) = some id') : id' ∈ stylePool d := by
  unfold getStyleResolve at h
  cases sid with
  | none =>
    cases hdef : defaultStyleOf d ty with
    | none => rw [hdef] at h; cases h
    | some s =>
      rw [hdef] at h
      simp only [Option.map_some', Option.some.injEq] at h
      rw [← h]
      exact defaultStyleOf_mem_pool d ty s hdef
  | some id =>
    have h' : (Option.map (fun x => x.id)
        (match findStyleById d id with
        | some s => if (s.type == ty) = true then some s else defaultStyleOf d ty
        | none => defaultStyleOf d ty)) = some id' := h
    clear h
    cases hfind : findStyleById d id with
    | none =>
      rw [hfind] at h'
      cases hdef : defaultStyleOf d ty with
      | none => rw [hdef] at h'; cases h'
      | some s =>
        rw [hdef] at h'
        simp only [Option.map_some', Option.some.injEq] at h'
        rw [← h']
        exact defaultStyleOf_mem_pool d ty s hdef
    | some s =>
      rw [hfind] at h'
      have h2 : (Option.map (fun x => x.id)
          (if (s.type == ty) = true then some s else defaultStyleOf d ty)) = some id' := h'
      clear h'
      by_cases hty : (s.type == ty) = true
      · rw [if_pos hty] at h2
        simp only [Option.map_some', Option.some.injEq] at h2
        have hsid : s.id = id := by
          have := List.find?_some hfind
          simpa using this
        rw [← h2, hsid]
        exact hraw id rfl
      · rw [if_neg hty] at h2
        cases hdef : defaultStyleOf d ty with
        | none => rw [hdef] at h2; cases h2
        | some s2 =>
          rw [hdef] at h2
          simp only [Option.map_some', Option.some.injEq] at h2
          rw [← h2]
          exact defaultStyleOf_mem_pool d ty s2 hdef

theorem resolveParaStyleId_pool (d : Doc) (sid : Option String) (id' : String)
    (hraw : ∀ id, sid = some id → id ∈ stylePool d)
    (h : resolveParaStyleId d sid = some id') : id' ∈ stylePool d :=
  getStyleResolve_pool d sid .paragraph id' hraw h

theorem firstTblStyle_mem (l : List TblPrChild) (id : String)
    (h : firstTblStyle l = some id) : TblPrChild.tblStyle id ∈ l := by
  induction l with
  | nil => cases h
  | cons ch rest ih =>
    cases ch with
    | tblStyle id0 =>
      simp only [firstTblStyle, Option.some.injEq] at h
      rw [h]
      exact List.mem_cons_self _ _
    | other s =>
      simp only [firstTblStyle] at h
      exact List.mem_cons_of_mem _ (ih h)

theorem tableStyleResolve_pool (d : Doc) (t : Tbl) (s : StyleDef)
    (ht : t ∈ docTables d) (h : getStyleResolve d (tblStyleIdOf t) .table = some s) :
    s.id ∈ stylePool d := by
  refine getStyleResolve_pool d (tblStyleIdOf t) .table s.id ?_ (by rw [h]; rfl)
  intro id hid
  unfold tblStyleIdOf at hid
  apply List.mem_append.mpr
  left
  exact mem_docStyleRefs_of_tbl d t id ht
    (mem_tblStyleRefs_of_tblPr t id (firstTblStyle_mem _ id hid))

theorem ParasPoolOK_modifyTc (pool : List String) (t : Tbl) (ri ti : Nat) (f : Tc → Tc)
    (h : ParasPoolOK pool t)
    (hf : ∀ tc, (∀ p ∈ cellParagraphs tc, ∀ id, p.styleId = some id → id ∈ pool) →
      ∀ p ∈ cellParagraphs (f tc), ∀ id, p.styleId = some id → id ∈ pool) :
    ParasPoolOK pool (t.modifyTc ri ti f) := by
  intro tr htr tc htc
  unfold Tbl.modifyTc at htr
  simp only at htr
  rcases mem_modifyAt _ _ _ _ htr with h' | ⟨tr0, htr0, heq⟩
  · exact h tr h' tc htc
  · rw [heq] at htc
    simp only at htc
    rcases mem_modifyAt _ _ _ _ htc with h'' | ⟨tc0, htc0, heq'⟩
    · exact h tr0 htr0 tc h''
    · rw [heq']
      exact hf tc0 (h tr0 htr0 tc0 htc0)

theorem eraseTbl_content_eq (a b : Tbl) (h : eraseTbl a = eraseTbl b) (ri ti : Nat)
    (tc : Tc) (hget : a.getTc? ri ti = some tc) :
    ∃ tc', b.getTc? ri ti = some tc' ∧ tc.content = tc'.content := by
  have hrows : a.rows.map eraseTr = b.rows.map eraseTr := by
    have := congrArg Tbl.rows h
    simpa [eraseTbl] using this
  unfold Tbl.getTc? at hget ⊢
  cases hga : a.rows.get? ri with
  | none => rw [hga] at hget; cases hget
  | some tra =>
    rw [hga] at hget
    simp only [Option.some_bind] at hget
    have h1 : (a.rows.map eraseTr).get? ri = some (eraseTr tra) := by
      rw [List.get?_map, hga]
      rfl
    rw [hrows, List.get?_map] at h1
    cases hgb : b.rows.get? ri with
    | none => rw [hgb] at h1; cases h1
    | some trb =>
      rw [hgb] at h1
      simp only [Option.map_some', Option.some.injEq] at h1
      have htcs : tra.tcs.map eraseTc = trb.tcs.map eraseTc := by
        have := congrArg Tr.tcs h1
        simpa [eraseTr] using this.symm
      have h2 : (tra.tcs.map eraseTc).get? ti = some (eraseTc tc) := by
        rw [List.get?_map, hget]
        rfl
      rw [htcs, List.get?_map] at h2
      cases hgc : trb.tcs.get? ti with
      | none => rw [hgc] at h2; cases h2
      | some tc' =>
        rw [hgc] at h2
        simp only [Option.map_some', Option.some.injEq] at h2
        refine ⟨tc', ?_, ?_⟩
        · simpa using hgc
        · have h3 := congrArg Tc.content h2
          simpa [eraseTc] using h3.symm

/-- The loop invariant for claim C6: copied paragraph styles stay in the
original's pool, the original's contents are unchanged, and neither table's
tblPr has been touched by the cell loop. -/
def PoolInv (d : Doc) (t0 : Tbl) (P : Option (List TblPrChild)) (st : Tbl × Tbl) : Prop :=
  ParasPoolOK (stylePool d) st.2 ∧ eraseTbl st.1 = eraseTbl t0 ∧
    st.1.tblPr = t0.tblPr ∧ st.2.tblPr = P

theorem copyCellAt_poolInv (d : Doc) (t0 : Tbl) (P : Option (List TblPrChild))
    (ht0 : t0 ∈ docTables d) (C : Nat) (st st' : Tbl × Tbl) (r c : Nat)
    (addr : Nat × Nat) (h : copyCellAt d C st r c addr = some st')
    (hInv : PoolInv d t0 P st) : PoolInv d t0 P st' := by
  obtain ⟨hPool, hErase, hPr1, hPr2⟩ := hInv
  unfold copyCellAt at h
  cases hA : tblCellAt? st.2 C r c with
  | none => rw [hA] at h; cases h
  | some nAddr =>
    rw [hA] at h
    simp only at h
    cases hg : st.1.getTc? addr.1 addr.2 with
    | none => rw [hg] at h; cases h
    | some origTc =>
      rw [hg] at h
      simp only at h
      have hcopied : ∀ p ∈ cellParagraphs
          (({ origTc with content := copiedCellContent d origTc } : Tc)),
          ∀ id, p.styleId = some id → id ∈ stylePool d := by
        intro p hp id hid
        rcases eraseTbl_content_eq st.1 t0 hErase addr.1 addr.2 origTc hg with
          ⟨tc', hget', hcont⟩
        have hp2 : p ∈ (cellParagraphs origTc).map (copyParagraph d) := by
          unfold cellParagraphs copiedCellContent at hp
          simp only at hp
          rcases List.mem_filterMap.mp hp with ⟨blk, hblk, hmatch⟩
          rcases List.mem_map.mp hblk with ⟨p0, hp0, heq0⟩
          rw [← heq0] at hmatch
          simp only [Option.some.injEq] at hmatch
          exact List.mem_map.mpr ⟨p0, hp0, hmatch⟩
        rcases List.mem_map.mp hp2 with ⟨p0, hp0, heqp⟩
        have hp0' : p0 ∈ cellParagraphs tc' := by
          unfold cellParagraphs at hp0 ⊢
          rw [← hcont]
          exact hp0
        have hres : resolveParaStyleId d p0.styleId = some id := by
          rw [← heqp] at hid
          unfold copyParagraph at hid
          simpa using hid
        refine resolveParaStyleId_pool d p0.styleId id ?_ hres
        intro id0 hid0
        rcases getTc?_mem t0 addr.1 addr.2 tc' hget' with ⟨tr0, htr0, htc0⟩
        exact List.mem_append_left _ (mem_docStyleRefs_of_tbl d t0 id0 ht0
          (mem_tblStyleRefs_of_tc t0 tr0 tc' id0 htr0 htc0
            (mem_tcStyleRefs tc' p0 id0 hp0' hid0)))
      have h1 : ParasPoolOK (stylePool d)
          (st.2.modifyTc nAddr.1 nAddr.2 fun tc => { tc with content := [] }) :=
        ParasPoolOK_modifyTc _ _ _ _ _ hPool (fun tc _ p hp => by
          unfold cellParagraphs at hp
          simp only [List.filterMap_nil] at hp
          cases hp)
      have h2 : ParasPoolOK (stylePool d)
          ((st.2.modifyTc nAddr.1 nAddr.2 fun tc => { tc with content := [] }).modifyTc
            nAddr.1 nAddr.2 fun tc => { tc with content := copiedCellContent d origTc }) := by
        refine ParasPoolOK_modifyTc _ _ _ _ _ h1 (fun tc _ p hp id hid => ?_)
        refine hcopied p ?_ id hid
        unfold cellParagraphs at hp ⊢
        exact hp
      have h3 := ParasPoolOK_modifyTc _ _ nAddr.1 nAddr.2
        (fun tc => { tc with tcPr := some (tc.tcPr.getD []) }) h2
        (fun tc htc p hp => htc p (by
          unfold cellParagraphs at hp ⊢
          exact hp))
      cases hPr : origTc.tcPr with
      | none =>
        rw [hPr] at h
        cases h
        exact ⟨h3, hErase, hPr1, hPr2⟩
      | some l =>
        rw [hPr] at h
        simp only at h
        cases h
        refine ⟨?_, ?_, hPr1, hPr2⟩
        · exact ParasPoolOK_modifyTc _ _ nAddr.1 nAddr.2 _ h3
            (fun tc htc p hp => htc p (by
              unfold cellParagraphs at hp ⊢
              exact hp))
        · rw [eraseTbl_modifyTc st.1 addr.1 addr.2
              (fun tc => { tc with tcPr := some (moveAlternate l).2 }) (fun tc => rfl)]
          exact hErase

theorem copyAllCells_poolInv (d : Doc) (t0 : Tbl) (P : Option (List TblPrChild))
    (ht0 : t0 ∈ docTables d) (R C : Nat) (st st' : Tbl × Tbl)
    (h : copyAllCells d R C st = some st') (hInv : PoolInv d t0 P st) :
    PoolInv d t0 P st' := by
  have := foldlM_option_preserve (PoolInv d t0 P)
    (fun s r => copyRowCells d C r s) (List.range R) st st' h ?_ hInv
  · exact this
  · intro x r y _ hstep hx
    have hstep2 : copyRowCells d C r x = some y := hstep
    unfold copyRowCells at hstep2
    cases hsnap : rowCellsSnapO x.1 r C with
    | none => rw [hsnap] at hstep2; cases hstep2
    | some snap =>
      rw [hsnap] at hstep2
      exact foldlM_option_preserve (PoolInv d t0 P)
        (fun (s : Tbl × Tbl) (ca : Nat × (Nat × Nat)) => copyCellAt d C s r ca.1 ca.2)
        _ x y hstep2
        (fun x' ca y' _ hstep' hx' =>
          copyCellAt_poolInv d t0 P ht0 C x' y' r ca.1 ca.2 hstep' hx') hx

theorem pOTinit_poolInv (d : Doc) (t : Tbl) :
    PoolInv d t (pOTinit d t).tblPr (t, pOTinit d t) := by
  refine ⟨?_, rfl, rfl, rfl⟩
  intro tr htr tc htc p hp id hid
  rw [pOTinit_rows] at htr
  have h1 := List.eq_of_mem_replicate htr
  rw [h1] at htc
  have h2 := List.eq_of_mem_replicate htc
  rw [h2] at hp
  unfold cellParagraphs mkNewTc at hp
  simp only [List.filterMap_cons, List.filterMap_nil] at hp
  rcases List.mem_singleton.mp hp with h3
  rw [h3] at hid
  cases hid

theorem pOTinit_tblPr_ids (d : Doc) (t : Tbl) (ht : t ∈ docTables d) (id : String)
    (h : TblPrChild.tblStyle id ∈ (pOTinit d t).tblPr.getD []) : id ∈ stylePool d := by
  unfold pOTinit at h
  cases hres : getStyleResolve d (tblStyleIdOf t) .table with
  | none =>
    rw [hres] at h
    simp only [mkNewTable, Option.getD_some, newTblPrDefault] at h
    rcases List.mem_singleton.mp h with h1
    cases h1
  | some s =>
    rw [hres] at h
    simp only [mkNewTable, Option.getD_some, newTblPrDefault, setTblStyleChildren] at h
    rcases List.mem_cons.mp h with h1 | h1
    · cases h1
      exact tableStyleResolve_pool d t s ht hres
    · rcases List.mem_filter.mp h1 with ⟨h2, _⟩
      rcases List.mem_singleton.mp h2 with h3
      cases h3

theorem processOneTable_styleRefs (d : Doc) (t : Tbl) (nd : Doc) (t' : Tbl)
    (ht : t ∈ docTables d) (h : processOneTable d t = some (nd, t')) :
    ∀ id ∈ docStyleRefs nd, id ∈ stylePool d := by
  rcases processOneTable_tblPr d t nd t' h with ⟨lPr, hPrT⟩
  rw [processOneTable_eq d t lPr hPrT] at h
  cases hc : copyAllCells d t.rows.length t.gridCols (t, pOTinit d t) with
  | none => rw [hc] at h; cases h
  | some st =>
    rw [hc] at h
    simp only [Option.map_some'] at h
    have hInv : PoolInv d t (pOTinit d t).tblPr st :=
      copyAllCells_poolInv d t _ ht _ _ _ st hc (pOTinit_poolInv d t)
    obtain ⟨hPool, _, hPr1, hPr2⟩ := hInv
    have hnd : nd = { defaultTemplate with body := [.tbl (pOTfin st).2] } := by
      cases h
      rfl
    intro id hid
    rw [hnd] at hid
    have hid2 : id ∈ tblStyleRefs (pOTfin st).2 := by
      unfold docStyleRefs at hid
      simp only [defaultTemplate, List.flatMap_cons, List.flatMap_nil,
        List.append_nil] at hid
      exact hid
    unfold tblStyleRefs at hid2
    rcases List.mem_append.mp hid2 with hidPr | hidCell
    · rcases List.mem_filterMap.mp hidPr with ⟨ch, hch, hmatch⟩
      have hch2 : ch = TblPrChild.tblStyle id := by
        cases ch with
        | tblStyle id0 => simpa using hmatch
        | other s => cases hmatch
      subst hch2
      unfold pOTfin at hch
      cases hPr0 : st.1.tblPr with
      | none =>
        rw [hPr0] at hch
        simp only at hch
        rw [hPr2] at hch
        exact pOTinit_tblPr_ids d t ht id hch
      | some l =>
        rw [hPr0] at hch
        simp only [Option.getD_some] at hch
        have hmem : TblPrChild.tblStyle id ∈ l := moveAlternate_fst_subset l _ hch
        have htPr : t.tblPr = some l := by rw [← hPr1, hPr0]
        have hmem2 : TblPrChild.tblStyle id ∈ t.tblPr.getD [] := by
          rw [htPr]
          exact hmem
        apply List.mem_append.mpr
        left
        exact mem_docStyleRefs_of_tbl d t id ht (mem_tblStyleRefs_of_tblPr t id hmem2)
    · have hrows : (pOTfin st).2.rows = st.2.rows := by
        unfold pOTfin
        cases st.1.tblPr <;> rfl
      rw [hrows] at hidCell
      rcases List.mem_flatMap.mp hidCell with ⟨tr, htr, hid3⟩
      rcases List.mem_flatMap.mp hid3 with ⟨tc, htc, hid4⟩
      unfold tcStyleRefs at hid4
      rcases List.mem_flatMap.mp hid4 with ⟨blk, hblk, hid5⟩
      cases blk with
      | para p =>
        have hp : p ∈ cellParagraphs tc := by
          unfold cellParagraphs
          exact List.mem_filterMap.mpr ⟨CellBlock.para p, hblk, rfl⟩
        have hsty : p.styleId = some id := by
          have hid6 : id ∈ p.styleId.toList := hid5
          cases hs : p.styleId with
          | none => rw [hs] at hid6; cases hid6
          | some id0 =>
            rw [hs] at hid6
            simp only [Option.toList_some, List.mem_singleton] at hid6
            rw [hid6]
        exact hPool tr htr tc htc p hp id hsty
      | table s0 => cases hid5

/-- C6 (counterexample helper is above): every style id referenced in an
extracted output originates from the original document — it is either written
somewhere in the original's body or defined by the original's styles part.
Membership in the OUTPUT's own styles part is not guaranteed (see the dangling
counterexample), which is what the original claim asserted. -/
theorem extract_style_refs_from_original (clock : Nat) (d : Doc)
    (out : List ExtractedDoc × Option String) (d' : Doc)
    (h : extractTablesFromDocxFull clock d = some (out, d'))
    (o : ExtractedDoc) (ho : o ∈ out.1) :
    ∀ id ∈ docStyleRefs (parsePackage o.content), id ∈ stylePool d := by
  rcases extractFull_outputs clock d out d' h o ho with ⟨t, nd, t', hmem, hp, hc⟩
  intro id hid
  rw [hc] at hid
  exact processOneTable_styleRefs d t nd t'
    (mem_docTables_of_mem_body d.body t hmem) hp id hid

/-- C6 witness: the theorem applied to the custom-style document and its
concrete output, whose references FancyTable and FancyStyle indeed lie in the
original's pool. -/
theorem extract_style_refs_from_original_witness :
    "FancyStyle" ∈ docStyleRefs (parsePackage exStyOut.content) ∧
      "FancyStyle" ∈ stylePool exDocSty :=
  ⟨by decide,
    extract_style_refs_from_original 0 exDocSty ([exStyOut], none) exDocStyAfter rfl
      exStyOut (List.mem_singleton.mpr rfl) "FancyStyle" (by decide)⟩

end DocSplitter
